import Mathlib

/-!
Shallow embedding of the Aleph cover tree (`include/aleph/geometry/CoverTree.hh`)
and Vietoris--Rips expander (`RipsExpander`), together with proofs about the
claims of the specification.

Modelling conventions:
* C++ `long` levels are modelled as `ℤ`.
* C++ `double` arithmetic (distances, `std::pow(2.0, level)`) is modelled by
  exact rational arithmetic over `ℚ`.
* The generic `Metric` functor is modelled by an explicit distance function
  `dist : P → P → ℚ`; where a proof needs metric axioms (symmetry, triangle
  inequality) they appear as explicit hypotheses.
* Fallible code paths (null-pointer dereferences such as running the validity
  checks on an empty tree) are modelled by `Option`.
-/

/-- A cover tree node, as in `CoverTree::Node`: a stored point (`_point`), an
integer level (`_level`) and the list of children (`_children`, in insertion
order). -/
inductive Node (P : Type) : Type where
  | mk : P → ℤ → List (Node P) → Node P

namespace Node

variable {P : Type}

/-- The `_point` field. -/
def point : Node P → P
  | .mk q _ _ => q

/-- The `_level` field. -/
def level : Node P → ℤ
  | .mk _ l _ => l

/-- The `_children` field. -/
def children : Node P → List (Node P)
  | .mk _ _ cs => cs

@[simp] theorem point_mk (q : P) (l : ℤ) (cs : List (Node P)) :
    (Node.mk q l cs).point = q := rfl

@[simp] theorem level_mk (q : P) (l : ℤ) (cs : List (Node P)) :
    (Node.mk q l cs).level = l := rfl

@[simp] theorem children_mk (q : P) (l : ℤ) (cs : List (Node P)) :
    (Node.mk q l cs).children = cs := rfl

/-- `Node::coveringDistance`: `coveringConstant ^ _level` with
`coveringConstant = 2.0`. -/
def coveringDistance (n : Node P) : ℚ := (2 : ℚ) ^ n.level

/-- `Node::separatingDistance`: `coveringConstant ^ (_level - 1)`. -/
def separatingDistance (n : Node P) : ℚ := (2 : ℚ) ^ (n.level - 1)

/-- `Node::isLeaf`: a node is a leaf iff it has no children. -/
def isLeaf (n : Node P) : Bool := n.children.isEmpty

end Node

mutual
/-- Number of nodes of a tree (not in the source; used as a size measure). -/
def sizeN {P : Type} : Node P → ℕ
  | .mk _ _ cs => 1 + sizeL cs
/-- Number of nodes of a forest. -/
def sizeL {P : Type} : List (Node P) → ℕ
  | [] => 0
  | c :: cs => sizeN c + sizeL cs
end

mutual
/-- Multiset of all points stored in a tree. -/
def pointsM {P : Type} : Node P → Multiset P
  | .mk q _ cs => q ::ₘ pointsL cs
/-- Multiset of all points stored in a forest. -/
def pointsL {P : Type} : List (Node P) → Multiset P
  | [] => 0
  | c :: cs => pointsM c + pointsL cs
end

mutual
/-- Points stored at leaf nodes of a tree. -/
def leafPointsM {P : Type} : Node P → Multiset P
  | .mk q _ cs => if cs.isEmpty then {q} else leafPointsL cs
/-- Points stored at leaf nodes of a forest. -/
def leafPointsL {P : Type} : List (Node P) → Multiset P
  | [] => 0
  | c :: cs => leafPointsM c + leafPointsL cs
end

mutual
/-- `Node::insert_`, the recursive descent: scan the children in stored
order; the first child `c` with `dist c.point p ≤ c.coveringDistance()`
receives the point recursively; if no child matches, `p` is appended as a
new child at level `_level - 1`. -/
def Node.insert_ {P : Type} (dist : P → P → ℚ) (p : P) : Node P → Node P
  | .mk q l cs => .mk q l (insertChildren dist p l cs)

/-- The loop body of `Node::insert_` over the child list (`l` is the level
of the current node). -/
def insertChildren {P : Type} (dist : P → P → ℚ) (p : P) (l : ℤ) :
    List (Node P) → List (Node P)
  | [] => [.mk p (l - 1) []]
  | c :: cs =>
      if dist c.point p ≤ c.coveringDistance then c.insert_ dist p :: cs
      else c :: insertChildren dist p l cs
end

/-! ### The three cover tree invariants, as executable predicates

These are the declarative versions of the invariants listed in the class
documentation (level, covering, separating), stated recursively over the
tree.  The breadth-first check functions of the source are modelled further
below and proved equivalent to these. -/

mutual
/-- Level invariant: every child has the level of its parent minus 1. -/
def levelInvB {P : Type} : Node P → Bool
  | .mk _ l cs => (cs.all fun c => c.level == l - 1) && levelInvL cs
def levelInvL {P : Type} : List (Node P) → Bool
  | [] => true
  | c :: cs => levelInvB c && levelInvL cs
end

mutual
/-- Covering invariant: `dist parent child ≤ parent.coveringDistance`. -/
def covInvB {P : Type} (dist : P → P → ℚ) : Node P → Bool
  | .mk q l cs =>
      (cs.all fun c => decide (dist q c.point ≤ (Node.mk q l cs).coveringDistance))
        && covInvL dist cs
def covInvL {P : Type} (dist : P → P → ℚ) : List (Node P) → Bool
  | [] => true
  | c :: cs => covInvB dist c && covInvL dist cs
end

/-- Pairwise separation of a list of siblings: every pair of distinct
children is strictly farther apart than the parent's separating distance
(the source checks `d <= separatingDistance` as a violation). -/
def sepPairsB {P : Type} (dist : P → P → ℚ) (s : ℚ) : List (Node P) → Bool
  | [] => true
  | c :: cs => (cs.all fun c2 => decide (s < dist c.point c2.point)) && sepPairsB dist s cs

mutual
/-- Separating invariant: children of a common parent are pairwise farther
apart than the parent's separating distance. -/
def sepInvB {P : Type} (dist : P → P → ℚ) : Node P → Bool
  | .mk q l cs =>
      sepPairsB dist (Node.mk q l cs).separatingDistance cs && sepInvL dist cs
def sepInvL {P : Type} (dist : P → P → ℚ) : List (Node P) → Bool
  | [] => true
  | c :: cs => sepInvB dist c && sepInvL dist cs
end

/-- All three invariants at once. -/
def validB {P : Type} (dist : P → P → ℚ) (n : Node P) : Bool :=
  levelInvB n && covInvB dist n && sepInvB dist n

/-! ### Paths into a tree

The leaf search inside `Node::insert` works on raw pointers; we model a
pointer to a node of the tree by the list of child indices leading to it. -/

/-- Dereference a path (list of child indices) in a tree. -/
def subtreeAt {P : Type} : Node P → List ℕ → Option (Node P)
  | n, [] => some n
  | n, i :: is =>
      match n.children[i]? with
      | some c => subtreeAt c is
      | none => none

mutual
/-- Remove the child with index `i` of the node addressed by `pth`
(modelling `parent->_children.erase(remove_if(...))`, which erases exactly
the node with the matching address). -/
def removeAt {P : Type} : Node P → List ℕ → ℕ → Node P
  | .mk q l cs, [], i => .mk q l (cs.eraseIdx i)
  | .mk q l cs, j :: rest, i => .mk q l (removeAtL cs j rest i)
termination_by _ pth _ => (pth.length, 0)
/-- Descend to child index `j`, then continue `removeAt` along `rest`. -/
def removeAtL {P : Type} : List (Node P) → ℕ → List ℕ → ℕ → List (Node P)
  | [], _, _, _ => []
  | c :: cs, 0, rest, i => removeAt c rest i :: cs
  | c :: cs, j + 1, rest, i => c :: removeAtL cs j rest i
termination_by cs _ rest _ => (rest.length, cs.length + 1)
end

/-- One round of the inner `for` loop of the leaf search in `Node::insert`:
scan the children of the popped node (whose path is `pth`) in order, at
running index `i`; stop at the first leaf child, recording `(pth, i)`;
non-leaf children scanned before that point are collected for pushing onto
the stack (in scan order). -/
def scanChildren {P : Type} (pth : List ℕ) : List (Node P) → ℕ → List (List ℕ) × Option (List ℕ × ℕ)
  | [], _ => ([], none)
  | c :: cs, i =>
      if c.isLeaf then ([], some (pth, i))
      else
        let r := scanChildren pth cs (i + 1)
        ((pth ++ [i]) :: r.1, r.2)

/-- Size of the subtree a stack entry points to (`0` for a dangling path);
used only as a termination measure for `searchLoop`. -/
def stackWeight {P : Type} (root : Node P) (pth : List ℕ) : ℕ :=
  match subtreeAt root pth with
  | some m => sizeN m
  | none => 0

@[simp] theorem sizeN_mk {P : Type} (q : P) (l : ℤ) (cs : List (Node P)) :
    sizeN (Node.mk q l cs) = 1 + sizeL cs := by simp [sizeN]

@[simp] theorem sizeL_nil {P : Type} : sizeL ([] : List (Node P)) = 0 := by simp [sizeL]

@[simp] theorem sizeL_cons {P : Type} (c : Node P) (cs : List (Node P)) :
    sizeL (c :: cs) = sizeN c + sizeL cs := by simp [sizeL]

theorem sizeN_pos {P : Type} (n : Node P) : 0 < sizeN n := by
  cases n with
  | mk q l cs => simp

@[simp] theorem subtreeAt_nil {P : Type} (n : Node P) : subtreeAt n [] = some n := by
  simp [subtreeAt]

theorem subtreeAt_cons {P : Type} (n : Node P) (i : ℕ) (is : List ℕ) :
    subtreeAt n (i :: is) = (n.children[i]?).bind (fun c => subtreeAt c is) := by
  cases h : n.children[i]? <;> simp [subtreeAt, h]

theorem subtreeAt_append_singleton {P : Type} (n : Node P) (pth : List ℕ) (i : ℕ) :
    subtreeAt n (pth ++ [i]) = (subtreeAt n pth).bind (fun m => m.children[i]?) := by
  induction pth generalizing n with
  | nil =>
      cases h : n.children[i]? <;> simp [subtreeAt_cons, h]
  | cons j pth ih =>
      cases h : n.children[j]? with
      | none => simp [subtreeAt_cons, h]
      | some c => simp [subtreeAt_cons, h, ih]

theorem scan_weight_sum_le {P : Type} (root nd : Node P) (pth : List ℕ)
    (h : subtreeAt root pth = some nd) :
    ∀ (cs : List (Node P)) (k : ℕ), (∀ j : ℕ, cs[j]? = nd.children[k + j]?) →
      (((scanChildren pth cs k).1).map (stackWeight root)).sum ≤ sizeL cs := by
  intro cs
  induction cs with
  | nil => intro k _; simp [scanChildren]
  | cons c cs ih =>
      intro k hk
      by_cases hc : c.isLeaf
      · simp [scanChildren, hc]
      · have h0 : nd.children[k]? = some c := by
          have := hk 0
          simpa using this.symm
        have hw : stackWeight root (pth ++ [k]) = sizeN c := by
          simp [stackWeight, subtreeAt_append_singleton, h, h0]
        have ih' := ih (k + 1) (fun j => by
          have := hk (j + 1)
          simpa [Nat.add_assoc, Nat.add_comm 1 j] using this)
        simp only [scanChildren, hc, Bool.false_eq_true, if_false, List.map_cons,
          List.sum_cons, sizeL_cons, hw]
        omega

/-- The `while( !nodes.empty() )` leaf-search loop of `Node::insert`: pop a
path from the stack, scan the children of the node it points to, push the
collected non-leaf children (so that the last pushed is popped first, as with
`std::stack`), and overwrite the recorded `(leaf, parent)` pair whenever the
scan found a leaf child.  Returns the final recorded pair: the path of the
parent together with the child index of the leaf. -/
def searchLoop {P : Type} (root : Node P) :
    List (List ℕ) → Option (List ℕ × ℕ) → Option (List ℕ × ℕ)
  | [], best => best
  | pth :: rest, best =>
      match h : subtreeAt root pth with
      | none => searchLoop root rest best
      | some nd =>
          let r := scanChildren pth nd.children 0
          searchLoop root (r.1.reverse ++ rest)
            (match r.2 with
             | some found => some found
             | none => best)
termination_by stack _ => ((stack.map (stackWeight root)).sum, stack.length)
decreasing_by
  · apply Prod.Lex.right'
    · simp [stackWeight, h]
    · simp
  · apply Prod.Lex.left
    have hb := scan_weight_sum_le root nd pth h nd.children 0 (by intro j; simp)
    have hw : stackWeight root pth = sizeN nd := by simp [stackWeight, h]
    have hpos := sizeN_pos nd
    simp only [List.map_cons, List.sum_cons, List.map_append, List.sum_append,
      List.map_reverse, List.sum_reverse, hw]
    cases nd with
    | mk q l cs =>
        simp only [Node.children_mk] at hb ⊢
        simp only [sizeN_mk]
        omega

@[simp] theorem pointsM_mk {P : Type} (q : P) (l : ℤ) (cs : List (Node P)) :
    pointsM (Node.mk q l cs) = q ::ₘ pointsL cs := by simp [pointsM]

@[simp] theorem pointsL_nil {P : Type} : pointsL ([] : List (Node P)) = 0 := by simp [pointsL]

@[simp] theorem pointsL_cons {P : Type} (c : Node P) (cs : List (Node P)) :
    pointsL (c :: cs) = pointsM c + pointsL cs := by simp [pointsL]

theorem point_mem_pointsM {P : Type} (n : Node P) : n.point ∈ pointsM n := by
  cases n with
  | mk q l cs => simp

theorem pointsL_eraseIdx {P : Type} {cs : List (Node P)} {i : ℕ} {c : Node P}
    (h : cs[i]? = some c) : pointsM c + pointsL (cs.eraseIdx i) = pointsL cs := by
  induction cs generalizing i with
  | nil => simp at h
  | cons d cs ih =>
      cases i with
      | zero =>
          simp at h
          subst h
          simp [List.eraseIdx]
      | succ i =>
          simp at h
          have := ih h
          simp only [List.eraseIdx, pointsL_cons]
          calc pointsM c + (pointsM d + pointsL (cs.eraseIdx i))
              = pointsM d + (pointsM c + pointsL (cs.eraseIdx i)) := by
                rw [add_left_comm]
            _ = pointsM d + pointsL cs := by rw [this]

theorem removeAtL_points {P : Type} :
    ∀ (cs : List (Node P)) (j : ℕ) (rest : List ℕ) (i : ℕ) (cj : Node P),
      cs[j]? = some cj →
      pointsL (removeAtL cs j rest i) + pointsM cj
        = pointsL cs + pointsM (removeAt cj rest i) := by
  intro cs
  induction cs with
  | nil => intro j rest i cj h; simp at h
  | cons d cs ih =>
      intro j rest i cj h
      cases j with
      | zero =>
          simp at h
          subst h
          simp only [removeAtL, pointsL_cons]
          abel
      | succ j =>
          simp at h
          have := ih j rest i cj h
          simp only [removeAtL, pointsL_cons]
          calc pointsM d + pointsL (removeAtL cs j rest i) + pointsM cj
              = pointsM d + (pointsL (removeAtL cs j rest i) + pointsM cj) := by abel
            _ = pointsM d + (pointsL cs + pointsM (removeAt cj rest i)) := by rw [this]
            _ = pointsM d + pointsL cs + pointsM (removeAt cj rest i) := by abel

theorem removeAt_points {P : Type} :
    ∀ (pth : List ℕ) (n : Node P) (i : ℕ) (par leaf : Node P),
      subtreeAt n pth = some par → par.children[i]? = some leaf →
      pointsM (removeAt n pth i) + pointsM leaf = pointsM n := by
  intro pth
  induction pth with
  | nil =>
      intro n i par leaf hsub hch
      cases n with
      | mk q l cs =>
          simp at hsub
          subst hsub
          simp only [Node.children_mk] at hch
          simp only [removeAt, pointsM_mk]
          calc (q ::ₘ pointsL (cs.eraseIdx i)) + pointsM leaf
              = q ::ₘ (pointsM leaf + pointsL (cs.eraseIdx i)) := by
                simp [Multiset.cons_add]
                abel
            _ = q ::ₘ pointsL cs := by rw [pointsL_eraseIdx hch]
  | cons j rest ih =>
      intro n i par leaf hsub hch
      cases n with
      | mk q l cs =>
          rw [subtreeAt_cons] at hsub
          simp only [Node.children_mk] at hsub
          cases hj : cs[j]? with
          | none => rw [hj] at hsub; simp at hsub
          | some cj =>
              rw [hj] at hsub
              simp only [Option.some_bind] at hsub
              have h1 := ih cj i par leaf hsub hch
              have h2 := removeAtL_points cs j rest i cj hj
              simp only [removeAt, pointsM_mk]
              have : pointsL (removeAtL cs j rest i) + pointsM leaf = pointsL cs := by
                have h3 : pointsL (removeAtL cs j rest i) + pointsM leaf + pointsM cj
                    = pointsL cs + pointsM cj := by
                  calc pointsL (removeAtL cs j rest i) + pointsM leaf + pointsM cj
                      = (pointsL (removeAtL cs j rest i) + pointsM cj) + pointsM leaf := by abel
                    _ = (pointsL cs + pointsM (removeAt cj rest i)) + pointsM leaf := by rw [h2]
                    _ = pointsL cs + (pointsM (removeAt cj rest i) + pointsM leaf) := by abel
                    _ = pointsL cs + pointsM cj := by rw [h1]
                exact add_right_cancel h3
              calc (q ::ₘ pointsL (removeAtL cs j rest i)) + pointsM leaf
                  = q ::ₘ (pointsL (removeAtL cs j rest i) + pointsM leaf) := by
                    simp [Multiset.cons_add]
                _ = q ::ₘ pointsL cs := by rw [this]


theorem searchLoop_nil {P : Type} (root : Node P) (best : Option (List ℕ × ℕ)) :
    searchLoop root [] best = best := by
  rw [searchLoop]

theorem searchLoop_cons_none {P : Type} {root : Node P} {pth : List ℕ}
    {rest : List (List ℕ)} {best : Option (List ℕ × ℕ)}
    (h : subtreeAt root pth = none) :
    searchLoop root (pth :: rest) best = searchLoop root rest best := by
  rw [searchLoop]
  split
  · rfl
  · rename_i nd heq
    rw [h] at heq
    exact absurd heq (by simp)

theorem searchLoop_cons_some {P : Type} {root : Node P} {pth : List ℕ}
    {rest : List (List ℕ)} {best : Option (List ℕ × ℕ)} {nd : Node P}
    (h : subtreeAt root pth = some nd) :
    searchLoop root (pth :: rest) best
      = searchLoop root ((scanChildren pth nd.children 0).1.reverse ++ rest)
          (match (scanChildren pth nd.children 0).2 with
           | some found => some found
           | none => best) := by
  rw [searchLoop]
  split
  · rename_i heq
    rw [h] at heq
    exact absurd heq (by simp)
  · rename_i nd2 heq
    rw [h] at heq
    have : nd2 = nd := by simpa using heq.symm
    subst this
    rfl

/-- A successful leaf search: `pth` addresses the parent node and `i` is the
index of a leaf child of it. -/
def ValidFind {P : Type} (n : Node P) (pth : List ℕ) (i : ℕ) : Prop :=
  ∃ par leaf, subtreeAt n pth = some par ∧ par.children[i]? = some leaf ∧
    leaf.children = []

theorem scan_found {P : Type} {pth : List ℕ} :
    ∀ {cs : List (Node P)} {k : ℕ} {q : List ℕ × ℕ},
      (scanChildren pth cs k).2 = some q →
      q.1 = pth ∧ ∃ j c, q.2 = k + j ∧ cs[j]? = some c ∧ c.children = [] := by
  intro cs
  induction cs with
  | nil => intro k q h; simp [scanChildren] at h
  | cons c cs ih =>
      intro k q h
      by_cases hc : c.isLeaf
      · simp [scanChildren, hc] at h
        have hcc : c.children = [] := by
          simpa [Node.isLeaf, List.isEmpty_iff] using hc
        refine ⟨by simp [← h], 0, c, by simp [← h], by simp, hcc⟩
      · simp only [scanChildren, hc, Bool.false_eq_true, if_false] at h
        obtain ⟨h1, j, d, h2, h3, h4⟩ := ih h
        exact ⟨h1, j + 1, d, by omega, by simpa using h3, h4⟩

theorem scan_pushed {P : Type} {pth : List ℕ} :
    ∀ {cs : List (Node P)} {k : ℕ} {p : List ℕ},
      p ∈ (scanChildren pth cs k).1 →
      ∃ j c, p = pth ++ [k + j] ∧ cs[j]? = some c ∧ c.children ≠ [] := by
  intro cs
  induction cs with
  | nil => intro k p h; simp [scanChildren] at h
  | cons c cs ih =>
      intro k p h
      by_cases hc : c.isLeaf
      · simp [scanChildren, hc] at h
      · simp only [scanChildren, hc, Bool.false_eq_true, if_false,
          List.mem_cons] at h
        rcases h with h | h
        · refine ⟨0, c, by simpa using h, by simp, ?_⟩
          simpa [Node.isLeaf, List.isEmpty_iff] using hc
        · obtain ⟨j, d, h1, h2, h3⟩ := ih h
          refine ⟨j + 1, d, ?_, by simpa using h2, h3⟩
          rw [h1]
          have : k + 1 + j = k + (j + 1) := by omega
          rw [this]

theorem scan_none_ne_nil {P : Type} {pth : List ℕ} {cs : List (Node P)} {k : ℕ}
    (hcs : cs ≠ []) (h : (scanChildren pth cs k).2 = none) :
    (scanChildren pth cs k).1 ≠ [] := by
  cases cs with
  | nil => exact absurd rfl hcs
  | cons c cs =>
      by_cases hc : c.isLeaf
      · simp [scanChildren, hc] at h
      · simp [scanChildren, hc]

theorem searchLoop_spec {P : Type} (root : Node P) :
    ∀ (stack : List (List ℕ)) (best : Option (List ℕ × ℕ)),
      (∀ p ∈ stack, ∃ nd, subtreeAt root p = some nd ∧ nd.children ≠ []) →
      (∀ q, best = some q → ValidFind root q.1 q.2) →
      (best ≠ none ∨ stack ≠ []) →
      ∃ q, searchLoop root stack best = some q ∧ ValidFind root q.1 q.2 := by
  intro stack best
  induction stack, best using searchLoop.induct root with
  | case1 best =>
      intro _ hbest hor
      rcases hor with hb | hs
      · cases best with
        | none => exact absurd rfl hb
        | some q => exact ⟨q, by rw [searchLoop_nil], hbest q rfl⟩
      · exact absurd rfl hs
  | case2 pth rest best h ih =>
      intro hstack _ _
      obtain ⟨nd, hnd, _⟩ := hstack pth (by simp)
      rw [h] at hnd
      simp at hnd
  | case3 pth rest best nd h r ih =>
      intro hstack hbest _
      rw [searchLoop_cons_some h]
      apply ih
      · intro p hp
        rcases List.mem_append.mp hp with hp | hp
        · rw [List.mem_reverse] at hp
          obtain ⟨j, c, hpe, hcj, hcc⟩ := scan_pushed hp
          refine ⟨c, ?_, hcc⟩
          rw [hpe, subtreeAt_append_singleton, h]
          simpa using hcj
        · exact hstack p (by simp [hp])
      · intro q hq
        cases hfound : r.2 with
        | some found =>
            rw [hfound] at hq
            simp at hq
            subst hq
            obtain ⟨h1, j, c, h2, h3, h4⟩ := scan_found hfound
            refine ⟨nd, c, by rw [h1]; exact h, ?_, h4⟩
            rw [h2]
            simpa using h3
        | none =>
            rw [hfound] at hq
            exact hbest q hq
      · cases hfound : r.2 with
        | some found => left; simp [hfound]
        | none =>
            right
            obtain ⟨nd2, hnd2, hne⟩ := hstack pth (by simp)
            have hnd2e : nd2 = nd := by rw [h] at hnd2; simpa using hnd2.symm
            subst hnd2e
            have hne2 := scan_none_ne_nil hne hfound
            intro habs
            rcases List.append_eq_nil.mp habs with ⟨habs1, _⟩
            exact hne2 (by simpa using habs1)

theorem mem_of_getElem? {α : Type} {l : List α} {i : ℕ} {a : α}
    (h : l[i]? = some a) : a ∈ l := by
  obtain ⟨hlt, he⟩ := List.getElem?_eq_some.mp h
  exact he ▸ List.getElem_mem hlt

theorem removeAt_point {P : Type} (n : Node P) (pth : List ℕ) (i : ℕ) :
    (removeAt n pth i).point = n.point := by
  cases n with
  | mk q l cs => cases pth <;> simp [removeAt]

theorem removeAt_level {P : Type} (n : Node P) (pth : List ℕ) (i : ℕ) :
    (removeAt n pth i).level = n.level := by
  cases n with
  | mk q l cs => cases pth <;> simp [removeAt]

theorem leafPointsM_le_leafPointsL {P : Type} {c : Node P} {cs : List (Node P)}
    (hmem : c ∈ cs) {x : P} (hx : x ∈ leafPointsM c) : x ∈ leafPointsL cs := by
  induction cs with
  | nil => simp at hmem
  | cons d cs ih =>
      rcases List.mem_cons.mp hmem with h | h
      · subst h; simp [leafPointsL, hx]
      · simp [leafPointsL, ih h]

theorem leaf_point_mem_leafPoints {P : Type} :
    ∀ (pth : List ℕ) (n m : Node P),
      subtreeAt n pth = some m → m.children = [] → m.point ∈ leafPointsM n := by
  intro pth
  induction pth with
  | nil =>
      intro n m hsub hm
      simp at hsub
      subst hsub
      cases n with
      | mk q l cs =>
          simp at hm
          subst hm
          simp [leafPointsM]
  | cons j rest ih =>
      intro n m hsub hm
      cases n with
      | mk q l cs =>
          rw [subtreeAt_cons] at hsub
          simp only [Node.children_mk] at hsub
          cases hj : cs[j]? with
          | none => rw [hj] at hsub; simp at hsub
          | some cj =>
              rw [hj] at hsub
              simp only [Option.some_bind] at hsub
              have hmem := ih cj m hsub hm
              have hcs : ¬cs.isEmpty := by
                cases cs with
                | nil => simp at hj
                | cons _ _ => simp
              simp only [leafPointsM, hcs, if_false, Bool.false_eq_true]
              exact leafPointsM_le_leafPointsL (mem_of_getElem? hj) hmem

/-- The leaf search and promotion step of `Node::insert`: run the stack
search; detach the found leaf from its parent; the old root (with its
remaining children) becomes the sole child of a new root carrying the leaf's
point, one level higher.  `none` models the `if( !leaf ) break` exit. -/
def findLeafRemove {P : Type} (n : Node P) : Option (Node P) :=
  match searchLoop n [[]] none with
  | none => none
  | some (pth, i) =>
      match subtreeAt n pth with
      | none => none
      | some par =>
          match par.children[i]? with
          | none => none
          | some leaf => some (.mk leaf.point (n.level + 1) [removeAt n pth i])

theorem findLeafRemove_spec {P : Type} (n : Node P) (hch : n.children ≠ []) :
    ∃ n2, findLeafRemove n = some n2 ∧ n2.level = n.level + 1 ∧
      pointsM n2 = pointsM n ∧ n2.point ∈ leafPointsM n ∧
      ∃ cs2, n2.children = [Node.mk n.point n.level cs2] := by
  obtain ⟨q, hsl, par, leaf, hsub, hgot, hleaf⟩ :=
    searchLoop_spec n [[]] none
      (by intro p hp; simp at hp; subst hp; exact ⟨n, by simp, hch⟩)
      (by intro q hq; simp at hq)
      (by right; simp)
  obtain ⟨pth, i⟩ := q
  dsimp only at hsub hgot
  refine ⟨Node.mk leaf.point (n.level + 1) [removeAt n pth i], ?_, by simp, ?_, ?_, ?_⟩
  · rw [findLeafRemove, hsl]
    dsimp only
    rw [hsub]
    dsimp only
    rw [hgot]
  · have hpts := removeAt_points pth n i par leaf hsub hgot
    have hleafpt : pointsM leaf = {leaf.point} := by
      cases leaf with
      | mk a b cs => simp at hleaf; subst hleaf; simp
    rw [hleafpt] at hpts
    rw [← hpts]
    simp [Multiset.singleton_add, add_comm]
    rw [add_comm, Multiset.singleton_add]
  · have : subtreeAt n (pth ++ [i]) = some leaf := by
      rw [subtreeAt_append_singleton, hsub]
      simpa using hgot
    simpa using leaf_point_mem_leafPoints (pth ++ [i]) n leaf this hleaf
  · refine ⟨(removeAt n pth i).children, ?_⟩
    have h1 := removeAt_point n pth i
    have h2 := removeAt_level n pth i
    cases hre : removeAt n pth i with
    | mk a b cs2 =>
        rw [hre] at h1 h2
        simp at h1 h2
        simp [h1, h2]

theorem exists_le_two_zpow (B : ℚ) (l : ℤ) : ∃ k : ℕ, B ≤ (2 : ℚ) ^ (l + k) := by
  obtain ⟨m, hm⟩ := exists_nat_gt (B / (2 : ℚ) ^ l)
  refine ⟨m, ?_⟩
  have h2 : ((2 : ℚ)) ≠ 0 := by norm_num
  have h2l : (0 : ℚ) < (2 : ℚ) ^ l := by positivity
  have hm2 : (m : ℚ) ≤ (2 : ℚ) ^ (m : ℤ) := by
    rw [zpow_natCast]
    exact_mod_cast (Nat.lt_two_pow m).le
  have hq : B / (2 : ℚ) ^ l ≤ (2 : ℚ) ^ (m : ℤ) := le_trans hm.le hm2
  rw [zpow_add₀ h2]
  calc B = (2 : ℚ) ^ l * (B / (2 : ℚ) ^ l) := by field_simp
    _ ≤ (2 : ℚ) ^ l * (2 : ℚ) ^ (m : ℤ) := mul_le_mul_of_nonneg_left hq h2l.le

theorem multiset_exists_bound (s : Multiset ℚ) : ∃ B : ℚ, ∀ x ∈ s, x ≤ B := by
  induction s using Multiset.induction_on with
  | empty => exact ⟨0, by simp⟩
  | cons a s ih =>
      obtain ⟨B, hB⟩ := ih
      refine ⟨max a B, ?_⟩
      intro x hx
      rcases Multiset.mem_cons.mp hx with h | h
      · subst h; exact le_max_left _ _
      · exact le_trans (hB x h) (le_max_right _ _)

theorem distBound_exists {P : Type} (dist : P → P → ℚ) (p : P) (n : Node P) :
    ∃ k : ℕ, ∀ q ∈ pointsM n, dist q p ≤ (2 : ℚ) ^ (n.level + k) := by
  obtain ⟨B, hB⟩ := multiset_exists_bound ((pointsM n).map (fun q => dist q p))
  obtain ⟨k, hk⟩ := exists_le_two_zpow B n.level
  refine ⟨k, fun q hq => ?_⟩
  exact le_trans (hB _ (Multiset.mem_map_of_mem _ hq)) hk

/-- Number of remaining iterations of the level-raising loop (used only as a
termination measure for `growLoop`). -/
def growMeasure {P : Type} (dist : P → P → ℚ) (p : P) (n : Node P) : ℕ :=
  Nat.find (distBound_exists dist p n)

theorem growMeasure_lt {P : Type} (dist : P → P → ℚ) (p : P) {n m : Node P}
    (hpts : pointsM m = pointsM n) (hlvl : m.level = n.level + 1)
    (hd : 2 * n.coveringDistance < dist n.point p) :
    growMeasure dist p m < growMeasure dist p n := by
  have hspec := Nat.find_spec (distBound_exists dist p n)
  have hk0pos : 0 < growMeasure dist p n := by
    rcases Nat.eq_zero_or_pos (growMeasure dist p n) with h0 | h
    · exfalso
      have h1 := hspec n.point (point_mem_pointsM n)
      unfold growMeasure at h0
      rw [h0] at h1
      simp only [Nat.cast_zero, add_zero] at h1
      have h2l : (0 : ℚ) < (2 : ℚ) ^ n.level := by positivity
      unfold Node.coveringDistance at hd
      linarith
    · exact h
  have hnext : ∀ q ∈ pointsM m,
      dist q p ≤ (2 : ℚ) ^ (m.level + (growMeasure dist p n - 1 : ℕ)) := by
    intro q hq
    rw [hpts] at hq
    have h1 := hspec q hq
    have harg : m.level + ((growMeasure dist p n - 1 : ℕ) : ℤ)
        = n.level + (growMeasure dist p n : ℕ) := by
      rw [hlvl]
      have : ((growMeasure dist p n - 1 : ℕ) : ℤ) = (growMeasure dist p n : ℤ) - 1 := by
        omega
      rw [this]
      push_cast
      ring
    rw [harg]
    exact h1
  have hle : growMeasure dist p m ≤ growMeasure dist p n - 1 := Nat.find_le hnext
  omega

theorem pointsM_raise {P : Type} (n : Node P) :
    pointsM (Node.mk n.point (n.level + 1) n.children) = pointsM n := by
  cases n with
  | mk q l cs => simp

/-- The `while( d > 2 * this->coveringDistance() )` loop of `Node::insert`:
while the distance from the current root to the new point exceeds twice the
root's covering distance, either raise the level of a leaf root by one, or
detach a leaf found by the stack search and promote it to a new root one
level higher (the previous root becoming its sole child), recomputing the
distance afterwards.  The `none` branch models the (unreachable)
`if( !leaf ) break`. -/
def growLoop {P : Type} (dist : P → P → ℚ) (p : P) (n : Node P) : Node P :=
  if h : 2 * n.coveringDistance < dist n.point p then
    if hleaf : n.children.isEmpty then
      growLoop dist p (.mk n.point (n.level + 1) n.children)
    else
      match hf : findLeafRemove n with
      | some n2 => growLoop dist p n2
      | none => n
  else n
termination_by growMeasure dist p n
decreasing_by
  · exact growMeasure_lt dist p (pointsM_raise n) (by simp) h
  · have hch : n.children ≠ [] := by simpa [List.isEmpty_iff] using hleaf
    obtain ⟨n2bis, hf2, hl2, hp2, _, _⟩ := findLeafRemove_spec n hch
    rw [hf] at hf2
    cases hf2
    exact growMeasure_lt dist p hp2 hl2 h

/-- `Node::insert`: if the distance from the root exceeds the covering
distance, grow the tree (the level-raising loop followed by promoting the
new point itself to the root, the previous root becoming its sole child);
otherwise descend recursively via `insert_`. -/
def Node.insert {P : Type} (dist : P → P → ℚ) (p : P) (n : Node P) : Node P :=
  if n.coveringDistance < dist n.point p then
    let r := growLoop dist p n
    .mk p (r.level + 1) [r]
  else
    n.insert_ dist p

/-- `CoverTree::insert`: an empty tree receives the point as a root at level
0; otherwise the root's `insert` runs.  The optional root models the
`std::unique_ptr<Node> _root`. -/
def treeInsert {P : Type} (dist : P → P → ℚ) (t : Option (Node P)) (p : P) :
    Option (Node P) :=
  match t with
  | none => some (.mk p 0 [])
  | some r => some (r.insert dist p)

/-- Insert a finite sequence of points into an initially empty cover tree
(the iterator-range overload of `CoverTree::insert`). -/
def insertAll {P : Type} (dist : P → P → ℚ) (ps : List P) : Option (Node P) :=
  ps.foldl (treeInsert dist) none

/-! ### Characterizations of the invariant predicates -/

theorem levelInvL_eq_all {P : Type} : ∀ cs : List (Node P), levelInvL cs = cs.all levelInvB := by
  intro cs
  induction cs with
  | nil => simp [levelInvL]
  | cons c cs ih => simp [levelInvL, ih]

theorem covInvL_eq_all {P : Type} (dist : P → P → ℚ) :
    ∀ cs : List (Node P), covInvL dist cs = cs.all (covInvB dist) := by
  intro cs
  induction cs with
  | nil => simp [covInvL]
  | cons c cs ih => simp [covInvL, ih]

theorem sepInvL_eq_all {P : Type} (dist : P → P → ℚ) :
    ∀ cs : List (Node P), sepInvL dist cs = cs.all (sepInvB dist) := by
  intro cs
  induction cs with
  | nil => simp [sepInvL]
  | cons c cs ih => simp [sepInvL, ih]

theorem levelInvB_mk_iff {P : Type} {q : P} {l : ℤ} {cs : List (Node P)} :
    levelInvB (Node.mk q l cs) = true ↔
      (∀ c ∈ cs, c.level = l - 1) ∧ (∀ c ∈ cs, levelInvB c = true) := by
  rw [levelInvB, levelInvL_eq_all]
  simp [List.all_eq_true]

theorem covInvB_mk_iff {P : Type} {dist : P → P → ℚ} {q : P} {l : ℤ} {cs : List (Node P)} :
    covInvB dist (Node.mk q l cs) = true ↔
      (∀ c ∈ cs, dist q c.point ≤ (2 : ℚ) ^ l) ∧ (∀ c ∈ cs, covInvB dist c = true) := by
  rw [covInvB, covInvL_eq_all]
  simp [List.all_eq_true, Node.coveringDistance]

theorem sepPairsB_cons_iff {P : Type} {dist : P → P → ℚ} {s : ℚ} {c : Node P}
    {cs : List (Node P)} :
    sepPairsB dist s (c :: cs) = true ↔
      (∀ c2 ∈ cs, s < dist c.point c2.point) ∧ sepPairsB dist s cs = true := by
  rw [sepPairsB]
  simp [List.all_eq_true]

theorem sepInvB_mk_iff {P : Type} {dist : P → P → ℚ} {q : P} {l : ℤ} {cs : List (Node P)} :
    sepInvB dist (Node.mk q l cs) = true ↔
      sepPairsB dist ((2 : ℚ) ^ (l - 1)) cs = true ∧ (∀ c ∈ cs, sepInvB dist c = true) := by
  rw [sepInvB, sepInvL_eq_all]
  simp [List.all_eq_true, Node.separatingDistance]

theorem validB_mk_iff {P : Type} {dist : P → P → ℚ} {n : Node P} :
    validB dist n = true ↔
      levelInvB n = true ∧ covInvB dist n = true ∧ sepInvB dist n = true := by
  simp [validB, and_assoc]

/-! ### Preservation of the invariants by the recursive descent `insert_` -/

theorem Node.insert_point {P : Type} (dist : P → P → ℚ) (p : P) (n : Node P) :
    (n.insert_ dist p).point = n.point := by
  cases n with
  | mk q l cs => simp [Node.insert_]

theorem Node.insert_level {P : Type} (dist : P → P → ℚ) (p : P) (n : Node P) :
    (n.insert_ dist p).level = n.level := by
  cases n with
  | mk q l cs => simp [Node.insert_]

theorem insertChildren_mem {P : Type} {dist : P → P → ℚ} {p : P} {l : ℤ} :
    ∀ {cs : List (Node P)} {x : Node P}, x ∈ insertChildren dist p l cs →
      x ∈ cs ∨
      (∃ c ∈ cs, x = c.insert_ dist p ∧ dist c.point p ≤ c.coveringDistance) ∨
      x = Node.mk p (l - 1) [] := by
  intro cs
  induction cs with
  | nil =>
      intro x hx
      right; right
      simpa [insertChildren] using hx
  | cons c cs ih =>
      intro x hx
      rw [insertChildren] at hx
      by_cases hc : dist c.point p ≤ c.coveringDistance
      · rw [if_pos hc] at hx
        rcases List.mem_cons.mp hx with h | h
        · exact Or.inr (Or.inl ⟨c, by simp, h, hc⟩)
        · exact Or.inl (by simp [h])
      · rw [if_neg hc] at hx
        rcases List.mem_cons.mp hx with h | h
        · exact Or.inl (by simp [h])
        · rcases ih h with h2 | h2 | h2
          · exact Or.inl (by simp [h2])
          · obtain ⟨d, hd, he, hcond⟩ := h2
            exact Or.inr (Or.inl ⟨d, by simp [hd], he, hcond⟩)
          · exact Or.inr (Or.inr h2)

theorem insertChildren_sepPairs {P : Type} {dist : P → P → ℚ} {p : P} {l : ℤ} :
    ∀ {cs : List (Node P)},
      sepPairsB dist ((2 : ℚ) ^ (l - 1)) cs = true →
      (∀ c ∈ cs, c.level = l - 1) →
      sepPairsB dist ((2 : ℚ) ^ (l - 1)) (insertChildren dist p l cs) = true := by
  intro cs
  induction cs with
  | nil =>
      intro _ _
      simp [insertChildren, sepPairsB]
  | cons c cs ih =>
      intro hsep hlvl
      obtain ⟨hhead, htail⟩ := sepPairsB_cons_iff.mp hsep
      rw [insertChildren]
      by_cases hc : dist c.point p ≤ c.coveringDistance
      · rw [if_pos hc]
        refine sepPairsB_cons_iff.mpr ⟨?_, htail⟩
        intro c2 hc2
        rw [Node.insert_point]
        exact hhead c2 hc2
      · rw [if_neg hc]
        refine sepPairsB_cons_iff.mpr ⟨?_, ?_⟩
        · intro c2 hc2
          rcases insertChildren_mem hc2 with h | h | h
          · exact hhead c2 h
          · obtain ⟨d, hd, he, _⟩ := h
            rw [he, Node.insert_point]
            exact hhead d hd
          · subst h
            simp only [Node.point_mk]
            have hcl : c.level = l - 1 := hlvl c (by simp)
            have : c.coveringDistance = (2 : ℚ) ^ (l - 1) := by
              rw [Node.coveringDistance, hcl]
            rw [← this]
            exact lt_of_not_ge (fun hge => hc hge)
        · exact ih htail (fun d hd => hlvl d (by simp [hd]))

theorem sizeN_le_sizeL_of_mem {P : Type} {c : Node P} {cs : List (Node P)}
    (h : c ∈ cs) : sizeN c ≤ sizeL cs := by
  induction cs with
  | nil => simp at h
  | cons d cs ih =>
      rcases List.mem_cons.mp h with h | h
      · subst h; simp
      · have := ih h; simp; omega

theorem validB_leaf {P : Type} (dist : P → P → ℚ) (p : P) (l : ℤ) :
    validB dist (Node.mk p l []) = true := by
  rw [validB_mk_iff]
  refine ⟨levelInvB_mk_iff.mpr ⟨by simp, by simp⟩,
          covInvB_mk_iff.mpr ⟨by simp, by simp⟩,
          sepInvB_mk_iff.mpr ⟨by simp [sepPairsB], by simp⟩⟩

/-- `Node::insert_` preserves all three invariants provided the point is
within the covering distance of the current node (the guard under which the
source calls it). -/
theorem insert_aux_valid {P : Type} (dist : P → P → ℚ) (p : P) :
    ∀ (N : ℕ) (n : Node P), sizeN n ≤ N → validB dist n = true →
      dist n.point p ≤ n.coveringDistance →
      validB dist (n.insert_ dist p) = true := by
  intro N
  induction N with
  | zero =>
      intro n h _ _
      have := sizeN_pos n
      omega
  | succ N ih =>
      intro n hsz hval hcond
      cases n with
      | mk q l cs =>
          rw [validB_mk_iff] at hval
          obtain ⟨hlv, hcv, hsp⟩ := hval
          obtain ⟨hlv1, hlv2⟩ := levelInvB_mk_iff.mp hlv
          obtain ⟨hcv1, hcv2⟩ := covInvB_mk_iff.mp hcv
          obtain ⟨hsp1, hsp2⟩ := sepInvB_mk_iff.mp hsp
          simp only [Node.coveringDistance, Node.point_mk, Node.level_mk] at hcond
          have hchild : ∀ c ∈ cs, validB dist c = true := fun c hc =>
            validB_mk_iff.mpr ⟨hlv2 c hc, hcv2 c hc, hsp2 c hc⟩
          have hins : ∀ c ∈ cs, dist c.point p ≤ c.coveringDistance →
              validB dist (c.insert_ dist p) = true := by
            intro c hc hcd
            have hszc : sizeN c ≤ N := by
              have h1 := sizeN_le_sizeL_of_mem hc
              simp at hsz
              omega
            exact ih c hszc (hchild c hc) hcd
          have hvx : ∀ x ∈ insertChildren dist p l cs, validB dist x = true := by
            intro x hx
            rcases insertChildren_mem hx with h | h | h
            · exact hchild x h
            · obtain ⟨c, hc, he, hcd⟩ := h
              rw [he]
              exact hins c hc hcd
            · rw [h]
              exact validB_leaf dist p (l - 1)
          rw [Node.insert_, validB_mk_iff]
          refine ⟨levelInvB_mk_iff.mpr ⟨?_, ?_⟩,
                  covInvB_mk_iff.mpr ⟨?_, ?_⟩,
                  sepInvB_mk_iff.mpr ⟨?_, ?_⟩⟩
          · intro x hx
            rcases insertChildren_mem hx with h | h | h
            · exact hlv1 x h
            · obtain ⟨c, hc, he, _⟩ := h
              rw [he, Node.insert_level]
              exact hlv1 c hc
            · rw [h]; simp
          · intro x hx
            exact (validB_mk_iff.mp (hvx x hx)).1
          · intro x hx
            rcases insertChildren_mem hx with h | h | h
            · exact hcv1 x h
            · obtain ⟨c, hc, he, _⟩ := h
              rw [he, Node.insert_point]
              exact hcv1 c hc
            · rw [h]; simpa using hcond
          · intro x hx
            exact (validB_mk_iff.mp (hvx x hx)).2.1
          · exact insertChildren_sepPairs hsp1 hlv1
          · intro x hx
            exact (validB_mk_iff.mp (hvx x hx)).2.2

/-! ### The promotion step preserves the invariants -/

theorem sepPairsB_eraseIdx {P : Type} {dist : P → P → ℚ} {s : ℚ} :
    ∀ {cs : List (Node P)} {i : ℕ}, sepPairsB dist s cs = true →
      sepPairsB dist s (cs.eraseIdx i) = true := by
  intro cs
  induction cs with
  | nil => intro i h; simpa [List.eraseIdx] using h
  | cons c cs ih =>
      intro i h
      obtain ⟨hhead, htail⟩ := sepPairsB_cons_iff.mp h
      cases i with
      | zero => simpa [List.eraseIdx] using htail
      | succ i =>
          simp only [List.eraseIdx]
          refine sepPairsB_cons_iff.mpr ⟨?_, ih htail⟩
          intro c2 hc2
          exact hhead c2 ((List.eraseIdx_sublist cs i).subset hc2)

theorem removeAtL_mem {P : Type} :
    ∀ {cs : List (Node P)} {j : ℕ} {rest : List ℕ} {i : ℕ} {x : Node P},
      x ∈ removeAtL cs j rest i →
      x ∈ cs ∨ ∃ cj, cs[j]? = some cj ∧ x = removeAt cj rest i := by
  intro cs
  induction cs with
  | nil => intro j rest i x hx; simp [removeAtL] at hx
  | cons c cs ih =>
      intro j rest i x hx
      cases j with
      | zero =>
          rw [removeAtL] at hx
          rcases List.mem_cons.mp hx with h | h
          · exact Or.inr ⟨c, by simp, h⟩
          · exact Or.inl (by simp [h])
      | succ j =>
          rw [removeAtL] at hx
          rcases List.mem_cons.mp hx with h | h
          · exact Or.inl (by simp [h])
          · rcases ih h with h2 | h2
            · exact Or.inl (by simp [h2])
            · obtain ⟨cj, hj, he⟩ := h2
              exact Or.inr ⟨cj, by simpa using hj, he⟩

theorem removeAtL_map_point {P : Type} :
    ∀ (cs : List (Node P)) (j : ℕ) (rest : List ℕ) (i : ℕ),
      (removeAtL cs j rest i).map Node.point = cs.map Node.point := by
  intro cs
  induction cs with
  | nil => intro j rest i; simp [removeAtL]
  | cons c cs ih =>
      intro j rest i
      cases j with
      | zero => simp [removeAtL, removeAt_point]
      | succ j => simp [removeAtL, ih]

theorem all_point_congr {P : Type} (f : P → Bool) :
    ∀ {cs ds : List (Node P)}, cs.map Node.point = ds.map Node.point →
      (cs.all fun c => f c.point) = (ds.all fun c => f c.point) := by
  intro cs
  induction cs with
  | nil =>
      intro ds h
      cases ds with
      | nil => rfl
      | cons d ds => simp at h
  | cons c cs ih =>
      intro ds h
      cases ds with
      | nil => simp at h
      | cons d ds =>
          simp only [List.map_cons, List.cons.injEq] at h
          simp [List.all_cons, h.1, ih h.2]

theorem sepPairsB_congr_points {P : Type} (dist : P → P → ℚ) (s : ℚ) :
    ∀ {cs ds : List (Node P)}, cs.map Node.point = ds.map Node.point →
      sepPairsB dist s cs = sepPairsB dist s ds := by
  intro cs
  induction cs with
  | nil =>
      intro ds h
      cases ds with
      | nil => rfl
      | cons d ds => simp at h
  | cons c cs ih =>
      intro ds h
      cases ds with
      | nil => simp at h
      | cons d ds =>
          simp only [List.map_cons, List.cons.injEq] at h
          rw [sepPairsB, sepPairsB, ih h.2, h.1,
            all_point_congr (fun x => decide (s < dist d.point x)) h.2]

theorem removeAt_valid {P : Type} (dist : P → P → ℚ) :
    ∀ (pth : List ℕ) (n : Node P) (i : ℕ),
      validB dist n = true → validB dist (removeAt n pth i) = true := by
  intro pth
  induction pth with
  | nil =>
      intro n i hval
      cases n with
      | mk q l cs =>
          obtain ⟨hlv, hcv, hsp⟩ := validB_mk_iff.mp hval
          obtain ⟨hlv1, hlv2⟩ := levelInvB_mk_iff.mp hlv
          obtain ⟨hcv1, hcv2⟩ := covInvB_mk_iff.mp hcv
          obtain ⟨hsp1, hsp2⟩ := sepInvB_mk_iff.mp hsp
          rw [removeAt, validB_mk_iff]
          have hsub : ∀ x ∈ cs.eraseIdx i, x ∈ cs :=
            fun x hx => (List.eraseIdx_sublist cs i).subset hx
          exact ⟨levelInvB_mk_iff.mpr ⟨fun x hx => hlv1 x (hsub x hx),
                   fun x hx => hlv2 x (hsub x hx)⟩,
                 covInvB_mk_iff.mpr ⟨fun x hx => hcv1 x (hsub x hx),
                   fun x hx => hcv2 x (hsub x hx)⟩,
                 sepInvB_mk_iff.mpr ⟨sepPairsB_eraseIdx hsp1,
                   fun x hx => hsp2 x (hsub x hx)⟩⟩
  | cons j rest ih =>
      intro n i hval
      cases n with
      | mk q l cs =>
          obtain ⟨hlv, hcv, hsp⟩ := validB_mk_iff.mp hval
          obtain ⟨hlv1, hlv2⟩ := levelInvB_mk_iff.mp hlv
          obtain ⟨hcv1, hcv2⟩ := covInvB_mk_iff.mp hcv
          obtain ⟨hsp1, hsp2⟩ := sepInvB_mk_iff.mp hsp
          have hchild : ∀ c ∈ cs, validB dist c = true := fun c hc =>
            validB_mk_iff.mpr ⟨hlv2 c hc, hcv2 c hc, hsp2 c hc⟩
          have hmemfacts : ∀ x ∈ removeAtL cs j rest i,
              (∃ y ∈ cs, x.point = y.point ∧ x.level = y.level) ∧
                validB dist x = true := by
            intro x hx
            rcases removeAtL_mem hx with h | h
            · exact ⟨⟨x, h, rfl, rfl⟩, hchild x h⟩
            · obtain ⟨cj, hj, he⟩ := h
              have hcj : cj ∈ cs := mem_of_getElem? hj
              refine ⟨⟨cj, hcj, ?_, ?_⟩, ?_⟩
              · rw [he, removeAt_point]
              · rw [he, removeAt_level]
              · rw [he]
                exact ih cj i (hchild cj hcj)
          rw [removeAt, validB_mk_iff]
          refine ⟨levelInvB_mk_iff.mpr ⟨?_, ?_⟩,
                  covInvB_mk_iff.mpr ⟨?_, ?_⟩,
                  sepInvB_mk_iff.mpr ⟨?_, ?_⟩⟩
          · intro x hx
            obtain ⟨⟨y, hy, _, hlvl⟩, _⟩ := hmemfacts x hx
            rw [hlvl]
            exact hlv1 y hy
          · intro x hx
            exact (validB_mk_iff.mp (hmemfacts x hx).2).1
          · intro x hx
            obtain ⟨⟨y, hy, hpt, _⟩, _⟩ := hmemfacts x hx
            rw [hpt]
            exact hcv1 y hy
          · intro x hx
            exact (validB_mk_iff.mp (hmemfacts x hx).2).2.1
          · rw [sepPairsB_congr_points dist _ (removeAtL_map_point cs j rest i)]
            exact hsp1
          · intro x hx
            exact (validB_mk_iff.mp (hmemfacts x hx).2).2.2

theorem two_mul_zpow (l : ℤ) : 2 * (2 : ℚ) ^ l = (2 : ℚ) ^ (l + 1) := by
  rw [zpow_add_one₀ (by norm_num : (2 : ℚ) ≠ 0)]
  ring

/-- In a tree satisfying the level and covering invariants, every strict
descendant is within twice the covering distance of the root (geometric sum
along the path, via the triangle inequality). -/
theorem descendant_dist_bound {P : Type} (dist : P → P → ℚ)
    (htri : ∀ x y z, dist x z ≤ dist x y + dist y z) :
    ∀ (pth : List ℕ) (n m : Node P), pth ≠ [] →
      levelInvB n = true → covInvB dist n = true →
      subtreeAt n pth = some m →
      dist n.point m.point ≤ 2 * n.coveringDistance := by
  intro pth
  induction pth with
  | nil => intro n m h; exact absurd rfl h
  | cons i rest ih =>
      intro n m _ hlv hcv hsub
      cases n with
      | mk q l cs =>
          obtain ⟨hlv1, hlv2⟩ := levelInvB_mk_iff.mp hlv
          obtain ⟨hcv1, hcv2⟩ := covInvB_mk_iff.mp hcv
          rw [subtreeAt_cons] at hsub
          simp only [Node.children_mk] at hsub
          cases hj : cs[i]? with
          | none => rw [hj] at hsub; simp at hsub
          | some c =>
              rw [hj] at hsub
              simp only [Option.some_bind] at hsub
              have hc : c ∈ cs := mem_of_getElem? hj
              have hqc : dist q c.point ≤ (2 : ℚ) ^ l := hcv1 c hc
              have h2l : (0 : ℚ) < (2 : ℚ) ^ l := by positivity
              simp only [Node.coveringDistance, Node.point_mk, Node.level_mk]
              cases rest with
              | nil =>
                  simp at hsub
                  subst hsub
                  linarith
              | cons r rs =>
                  have hrec := ih c m (by simp) (hlv2 c hc) (hcv2 c hc) hsub
                  have hclvl : c.level = l - 1 := hlv1 c hc
                  rw [Node.coveringDistance, hclvl] at hrec
                  have h2 : 2 * (2 : ℚ) ^ (l - 1) = (2 : ℚ) ^ l := by
                    rw [two_mul_zpow]
                    ring_nf
                  rw [h2] at hrec
                  have htr := htri q c.point m.point
                  linarith

/-- Shape of a successful leaf search and promotion, with the parent path
exposed. -/
theorem findLeafRemove_eq {P : Type} (n : Node P) (hch : n.children ≠ []) :
    ∃ pth i par leaf,
      subtreeAt n pth = some par ∧ par.children[i]? = some leaf ∧
      leaf.children = [] ∧
      findLeafRemove n = some (Node.mk leaf.point (n.level + 1) [removeAt n pth i]) := by
  obtain ⟨q, hsl, par, leaf, hsub, hgot, hleaf⟩ :=
    searchLoop_spec n [[]] none
      (by intro p hp; simp at hp; subst hp; exact ⟨n, by simp, hch⟩)
      (by intro q hq; simp at hq)
      (by right; simp)
  obtain ⟨pth, i⟩ := q
  dsimp only at hsub hgot
  refine ⟨pth, i, par, leaf, hsub, hgot, hleaf, ?_⟩
  rw [findLeafRemove, hsl]
  dsimp only
  rw [hsub]
  dsimp only
  rw [hgot]

theorem growLoop_eq_of_not {P : Type} {dist : P → P → ℚ} {p : P} {n : Node P}
    (h : ¬ 2 * n.coveringDistance < dist n.point p) :
    growLoop dist p n = n := by
  rw [growLoop, dif_neg h]

theorem growLoop_eq_leaf {P : Type} {dist : P → P → ℚ} {p : P} {n : Node P}
    (h : 2 * n.coveringDistance < dist n.point p) (hleaf : n.children.isEmpty) :
    growLoop dist p n = growLoop dist p (.mk n.point (n.level + 1) n.children) := by
  rw [growLoop, dif_pos h, dif_pos hleaf]

theorem growLoop_eq_promote {P : Type} {dist : P → P → ℚ} {p : P} {n n2 : Node P}
    (h : 2 * n.coveringDistance < dist n.point p) (hleaf : ¬ n.children.isEmpty)
    (hf : findLeafRemove n = some n2) :
    growLoop dist p n = growLoop dist p n2 := by
  rw [growLoop, dif_pos h, dif_neg hleaf]
  split
  · rename_i n2bis heq
    rw [hf] at heq
    have : n2bis = n2 := by simpa using heq.symm
    rw [this]
  · rename_i heq
    rw [hf] at heq
    exact absurd heq (by simp)

/-- The level-raising loop preserves the three invariants and stops with the
distance to the new point at most twice the covering distance of the final
root. -/
theorem growLoop_props {P : Type} (dist : P → P → ℚ) (p : P)
    (hsymm : ∀ x y, dist x y = dist y x)
    (htri : ∀ x y z, dist x z ≤ dist x y + dist y z) :
    ∀ n : Node P, validB dist n = true →
      validB dist (growLoop dist p n) = true ∧
      dist (growLoop dist p n).point p ≤ 2 * (growLoop dist p n).coveringDistance := by
  intro n
  induction n using growLoop.induct dist p with
  | case1 x h hleaf ih =>
      intro _
      rw [growLoop_eq_leaf h hleaf]
      apply ih
      have hc : x.children = [] := by simpa [List.isEmpty_iff] using hleaf
      rw [hc]
      exact validB_leaf dist x.point (x.level + 1)
  | case2 x h hleaf n2 hf ih =>
      intro hval
      rw [growLoop_eq_promote h hleaf hf]
      apply ih
      have hch : x.children ≠ [] := by simpa [List.isEmpty_iff] using hleaf
      obtain ⟨pth, i, par, leaf, hsub, hgot, hleafc, heq⟩ := findLeafRemove_eq x hch
      rw [hf] at heq
      have hn2 : n2 = Node.mk leaf.point (x.level + 1) [removeAt x pth i] := by
        simpa using heq
      subst hn2
      obtain ⟨hlv, hcv, _⟩ := validB_mk_iff.mp hval
      have hrv := removeAt_valid dist pth x i hval
      obtain ⟨hrlv, hrcv, hrsp⟩ := validB_mk_iff.mp hrv
      have hsubleaf : subtreeAt x (pth ++ [i]) = some leaf := by
        rw [subtreeAt_append_singleton, hsub]
        simpa using hgot
      have hbound := descendant_dist_bound dist htri (pth ++ [i]) x leaf
        (by simp) hlv hcv hsubleaf
      refine validB_mk_iff.mpr ⟨levelInvB_mk_iff.mpr ⟨?_, ?_⟩,
        covInvB_mk_iff.mpr ⟨?_, ?_⟩, sepInvB_mk_iff.mpr ⟨?_, ?_⟩⟩
      · intro c hc
        simp at hc
        subst hc
        rw [removeAt_level]
        ring
      · intro c hc
        simp at hc
        subst hc
        exact hrlv
      · intro c hc
        simp at hc
        subst hc
        rw [removeAt_point, hsymm]
        rw [Node.coveringDistance] at hbound
        rw [← two_mul_zpow]
        exact hbound
      · intro c hc
        simp at hc
        subst hc
        exact hrcv
      · simp [sepPairsB]
      · intro c hc
        simp at hc
        subst hc
        exact hrsp
  | case3 x h hleaf hf =>
      intro _
      exfalso
      have hch : x.children ≠ [] := by simpa [List.isEmpty_iff] using hleaf
      obtain ⟨pth, i, par, leaf, _, _, _, heq⟩ := findLeafRemove_eq x hch
      rw [hf] at heq
      exact absurd heq (by simp)
  | case4 x h =>
      intro hval
      rw [growLoop_eq_of_not h]
      exact ⟨hval, le_of_not_lt h⟩

/-- `Node::insert` preserves the three invariants (for a metric satisfying
symmetry and the triangle inequality). -/
theorem Node.insert_valid {P : Type} (dist : P → P → ℚ) (p : P)
    (hsymm : ∀ x y, dist x y = dist y x)
    (htri : ∀ x y z, dist x z ≤ dist x y + dist y z)
    (n : Node P) (hval : validB dist n = true) :
    validB dist (n.insert dist p) = true := by
  rw [Node.insert]
  by_cases hd : n.coveringDistance < dist n.point p
  · rw [if_pos hd]
    obtain ⟨hgv, hgb⟩ := growLoop_props dist p hsymm htri n hval
    show validB dist
      (Node.mk p ((growLoop dist p n).level + 1) [growLoop dist p n]) = true
    refine validB_mk_iff.mpr ⟨levelInvB_mk_iff.mpr ⟨?_, ?_⟩,
      covInvB_mk_iff.mpr ⟨?_, ?_⟩, sepInvB_mk_iff.mpr ⟨?_, ?_⟩⟩
    · intro c hc
      simp at hc
      subst hc
      ring
    · intro c hc
      simp at hc
      subst hc
      exact (validB_mk_iff.mp hgv).1
    · intro c hc
      simp at hc
      subst hc
      rw [hsymm, ← two_mul_zpow]
      rw [Node.coveringDistance] at hgb
      exact hgb
    · intro c hc
      simp at hc
      subst hc
      exact (validB_mk_iff.mp hgv).2.1
    · simp [sepPairsB]
    · intro c hc
      simp at hc
      subst hc
      exact (validB_mk_iff.mp hgv).2.2
  · rw [if_neg hd]
    exact insert_aux_valid dist p (sizeN n) n le_rfl hval (le_of_not_lt hd)

/-- The invariants for the whole cover tree (`_root` may be null, in which
case the tree is trivially valid). -/
def validOptB {P : Type} (dist : P → P → ℚ) : Option (Node P) → Bool
  | none => true
  | some n => validB dist n

theorem treeInsert_valid {P : Type} (dist : P → P → ℚ) (p : P)
    (hsymm : ∀ x y, dist x y = dist y x)
    (htri : ∀ x y z, dist x z ≤ dist x y + dist y z)
    (t : Option (Node P)) (hval : validOptB dist t = true) :
    validOptB dist (treeInsert dist t p) = true := by
  cases t with
  | none =>
      show validB dist (Node.mk p 0 []) = true
      exact validB_leaf dist p 0
  | some r => exact Node.insert_valid dist p hsymm htri r hval

/-- **C1.** For every finite sequence of point insertions into a cover tree
(covering constant 2), after every single insert the resulting tree satisfies
the level invariant, the covering invariant and the separating invariant
simultaneously.  (Quantifying over all insertion sequences covers every
intermediate tree; the metric is assumed symmetric and to satisfy the
triangle inequality, as in the specification's data model.) -/
theorem claim_C1 {P : Type} (dist : P → P → ℚ)
    (hsymm : ∀ x y, dist x y = dist y x)
    (htri : ∀ x y z, dist x z ≤ dist x y + dist y z)
    (ps : List P) : validOptB dist (insertAll dist ps) = true := by
  suffices h : ∀ (qs : List P) (t : Option (Node P)), validOptB dist t = true →
      validOptB dist (qs.foldl (treeInsert dist) t) = true by
    exact h ps none rfl
  intro qs
  induction qs with
  | nil => intro t h; exact h
  | cons q qs ih =>
      intro t h
      exact ih (treeInsert dist t q) (treeInsert_valid dist q hsymm htri t h)

/-- The metric used for concrete witnesses: absolute difference on `ℚ`. -/
def ratDist (x y : ℚ) : ℚ := |x - y|

theorem ratDist_symm (x y : ℚ) : ratDist x y = ratDist y x := abs_sub_comm x y

theorem ratDist_tri (x y z : ℚ) : ratDist x z ≤ ratDist x y + ratDist y z :=
  abs_sub_le x y z

/-- Witness for C1: scenario A of the specification
(inserting 0, 10, 20 with the absolute-difference metric). -/
theorem claim_C1_witness :
    validOptB ratDist (insertAll ratDist [0, 10, 20]) = true :=
  claim_C1 ratDist ratDist_symm ratDist_tri [0, 10, 20]

/-! ### Size and point bookkeeping of `insert_` (claim C9) -/

theorem insertChildren_sizeL {P : Type} {dist : P → P → ℚ} {p : P} {l : ℤ} :
    ∀ {cs : List (Node P)},
      (∀ c ∈ cs, sizeN (c.insert_ dist p) = sizeN c + 1) →
      sizeL (insertChildren dist p l cs) = sizeL cs + 1 := by
  intro cs
  induction cs with
  | nil => intro _; simp [insertChildren]
  | cons c cs ih =>
      intro hall
      rw [insertChildren]
      by_cases hc : dist c.point p ≤ c.coveringDistance
      · rw [if_pos hc]
        simp only [sizeL_cons, hall c (by simp)]
        omega
      · rw [if_neg hc]
        simp only [sizeL_cons, ih (fun d hd => hall d (by simp [hd]))]
        omega

theorem insert_aux_sizeN {P : Type} (dist : P → P → ℚ) (p : P) :
    ∀ (N : ℕ) (n : Node P), sizeN n ≤ N →
      sizeN (n.insert_ dist p) = sizeN n + 1 := by
  intro N
  induction N with
  | zero => intro n h; have := sizeN_pos n; omega
  | succ N ih =>
      intro n hsz
      cases n with
      | mk q l cs =>
          rw [Node.insert_]
          simp only [sizeN_mk]
          rw [insertChildren_sizeL (fun c hc => ih c (by
            have := sizeN_le_sizeL_of_mem hc
            simp at hsz
            omega))]
          omega

theorem insertChildren_pointsL {P : Type} {dist : P → P → ℚ} {p : P} {l : ℤ} :
    ∀ {cs : List (Node P)},
      (∀ c ∈ cs, pointsM (c.insert_ dist p) = p ::ₘ pointsM c) →
      pointsL (insertChildren dist p l cs) = p ::ₘ pointsL cs := by
  intro cs
  induction cs with
  | nil => intro _; simp [insertChildren]
  | cons c cs ih =>
      intro hall
      rw [insertChildren]
      by_cases hc : dist c.point p ≤ c.coveringDistance
      · rw [if_pos hc]
        simp only [pointsL_cons, hall c (by simp)]
        rw [Multiset.cons_add]
      · rw [if_neg hc]
        simp only [pointsL_cons, ih (fun d hd => hall d (by simp [hd]))]
        rw [Multiset.add_cons]

theorem insert_aux_pointsM {P : Type} (dist : P → P → ℚ) (p : P) :
    ∀ (N : ℕ) (n : Node P), sizeN n ≤ N →
      pointsM (n.insert_ dist p) = p ::ₘ pointsM n := by
  intro N
  induction N with
  | zero => intro n h; have := sizeN_pos n; omega
  | succ N ih =>
      intro n hsz
      cases n with
      | mk q l cs =>
          rw [Node.insert_]
          simp only [pointsM_mk]
          rw [insertChildren_pointsL (fun c hc => ih c (by
            have := sizeN_le_sizeL_of_mem hc
            simp at hsz
            omega))]
          rw [Multiset.cons_swap]

theorem insertChildren_ne_nil {P : Type} {dist : P → P → ℚ} {p : P} {l : ℤ}
    {cs : List (Node P)} : insertChildren dist p l cs ≠ [] := by
  cases cs with
  | nil => simp [insertChildren]
  | cons c cs =>
      rw [insertChildren]
      by_cases hc : dist c.point p ≤ c.coveringDistance
      · rw [if_pos hc]; simp
      · rw [if_neg hc]; simp

theorem insert_aux_leafPoint {P : Type} (dist : P → P → ℚ) (p : P) :
    ∀ (N : ℕ) (n : Node P), sizeN n ≤ N →
      p ∈ leafPointsM (n.insert_ dist p) := by
  intro N
  induction N with
  | zero => intro n h; have := sizeN_pos n; omega
  | succ N ih =>
      intro n hsz
      cases n with
      | mk q l cs =>
          rw [Node.insert_]
          rw [leafPointsM]
          rw [if_neg (by simpa [List.isEmpty_iff] using
            (@insertChildren_ne_nil P dist p l cs))]
          have hmem : ∀ c ∈ cs, sizeN c ≤ N := by
            intro c hc
            have := sizeN_le_sizeL_of_mem hc
            simp at hsz
            omega
          clear hsz
          induction cs with
          | nil => simp [insertChildren, leafPointsL, leafPointsM]
          | cons c cs ihcs =>
              rw [insertChildren]
              by_cases hc : dist c.point p ≤ c.coveringDistance
              · rw [if_pos hc]
                rw [leafPointsL]
                have := ih c (hmem c (by simp))
                exact Multiset.mem_add.mpr (Or.inl this)
              · rw [if_neg hc]
                rw [leafPointsL]
                exact Multiset.mem_add.mpr
                  (Or.inr (ihcs (fun d hd => hmem d (by simp [hd]))))

/-- **C9.** The recursive descent `insert_` is total (it is compiled with a
termination proof in this embedding) and, for every tree and every point —
including a point at distance 0 from a stored point — it adds exactly one
node, keeps every previously stored point (so a duplicate is neither
rejected nor merged: the multiset count of the point increases by one), and
stores the new point at a leaf. -/
theorem claim_C9 {P : Type} (dist : P → P → ℚ) (p : P) (n : Node P) :
    sizeN (n.insert_ dist p) = sizeN n + 1 ∧
    pointsM (n.insert_ dist p) = p ::ₘ pointsM n ∧
    p ∈ leafPointsM (n.insert_ dist p) :=
  ⟨insert_aux_sizeN dist p (sizeN n) n le_rfl,
   insert_aux_pointsM dist p (sizeN n) n le_rfl,
   insert_aux_leafPoint dist p (sizeN n) n le_rfl⟩

/-! ### First-match descent (claim C5) -/

theorem insertChildren_first_match {P : Type} {dist : P → P → ℚ} {p : P} {l : ℤ} :
    ∀ {cs : List (Node P)} {i : ℕ} {c : Node P},
      cs[i]? = some c →
      (∀ j < i, ∀ cj : Node P, cs[j]? = some cj →
        ¬ dist cj.point p ≤ cj.coveringDistance) →
      dist c.point p ≤ c.coveringDistance →
      insertChildren dist p l cs = cs.set i (c.insert_ dist p) := by
  intro cs
  induction cs with
  | nil => intro i c h; simp at h
  | cons d cs ih =>
      intro i c hget hmin hcond
      cases i with
      | zero =>
          simp at hget
          subst hget
          rw [insertChildren, if_pos hcond]
          simp
      | succ i =>
          have hd : ¬ dist d.point p ≤ d.coveringDistance :=
            hmin 0 (by omega) d (by simp)
          rw [insertChildren, if_neg hd]
          simp at hget
          rw [ih hget (fun j hj cj hcj => hmin (j + 1) (by omega) cj (by simpa using hcj))
            hcond]
          simp [List.set]

theorem insertChildren_no_match {P : Type} {dist : P → P → ℚ} {p : P} {l : ℤ} :
    ∀ {cs : List (Node P)},
      (∀ c ∈ cs, ¬ dist c.point p ≤ c.coveringDistance) →
      insertChildren dist p l cs = cs ++ [Node.mk p (l - 1) []] := by
  intro cs
  induction cs with
  | nil => intro _; simp [insertChildren]
  | cons c cs ih =>
      intro hall
      rw [insertChildren, if_neg (hall c (by simp))]
      rw [ih (fun d hd => hall d (by simp [hd]))]
      simp

/-- **C5.** During the recursive descent `insert_`, children are scanned in
stored order: the *first* child whose distance to the point is at most its
covering distance receives the point (the recursion replaces exactly that
child, leaving all others untouched, with no backtracking and no
nearest-child selection); if no child matches, the point is added as a new
child of the current node at level `current level - 1`, appended at the end
of the child list. -/
theorem claim_C5 {P : Type} (dist : P → P → ℚ) (p q : P) (l : ℤ)
    (cs : List (Node P)) :
    (∀ (i : ℕ) (c : Node P), cs[i]? = some c →
       (∀ j < i, ∀ cj : Node P, cs[j]? = some cj →
         ¬ dist cj.point p ≤ cj.coveringDistance) →
       dist c.point p ≤ c.coveringDistance →
       (Node.mk q l cs).insert_ dist p = Node.mk q l (cs.set i (c.insert_ dist p))) ∧
    ((∀ c ∈ cs, ¬ dist c.point p ≤ c.coveringDistance) →
       (Node.mk q l cs).insert_ dist p
         = Node.mk q l (cs ++ [Node.mk p (l - 1) []])) := by
  constructor
  · intro i c hget hmin hcond
    rw [Node.insert_, insertChildren_first_match hget hmin hcond]
  · intro hall
    rw [Node.insert_, insertChildren_no_match hall]

/-- Witness for C5: in a node at level 1 with children storing 4 and 1 (both
at level 0), inserting the point 1 descends into the second child (the first
one fails the covering test) and leaves the first child untouched. -/
theorem claim_C5_witness :
    (Node.mk (0 : ℚ) 1 [Node.mk 4 0 [], Node.mk 1 0 []]).insert_ ratDist 1
      = Node.mk (0 : ℚ) 1
          ([Node.mk 4 0 [], Node.mk 1 0 []].set 1
            ((Node.mk (1 : ℚ) 0 []).insert_ ratDist 1)) := by
  refine (claim_C5 ratDist 1 0 1 [Node.mk 4 0 [], Node.mk 1 0 []]).1 1
    (Node.mk 1 0 []) (by simp) ?_ ?_
  · intro j hj cj hcj
    have hj0 : j = 0 := by omega
    subst hj0
    simp at hcj
    subst hcj
    norm_num [ratDist, Node.coveringDistance]
  · norm_num [ratDist, Node.coveringDistance]

/-! ### The tree-growing path of `insert` (claim C4) -/

theorem growLoop_eq_break {P : Type} {dist : P → P → ℚ} {p : P} {n : Node P}
    (h : 2 * n.coveringDistance < dist n.point p) (hleaf : ¬ n.children.isEmpty)
    (hf : findLeafRemove n = none) :
    growLoop dist p n = n := by
  rw [growLoop, dif_pos h, dif_neg hleaf]
  split
  · rename_i n2 heq
    rw [hf] at heq
    exact absurd heq (by simp)
  · rfl

theorem growLoop_pointsM {P : Type} (dist : P → P → ℚ) (p : P) :
    ∀ n : Node P, pointsM (growLoop dist p n) = pointsM n := by
  intro n
  induction n using growLoop.induct dist p with
  | case1 x h hleaf ih =>
      rw [growLoop_eq_leaf h hleaf, ih, pointsM_raise]
  | case2 x h hleaf n2 hf ih =>
      rw [growLoop_eq_promote h hleaf hf, ih]
      have hch : x.children ≠ [] := by simpa [List.isEmpty_iff] using hleaf
      obtain ⟨n2bis, hf2, _, hp2, _, _⟩ := findLeafRemove_spec x hch
      rw [hf] at hf2
      have : n2 = n2bis := by simpa using hf2
      rw [this]
      exact hp2
  | case3 x h hleaf hf => rw [growLoop_eq_break h hleaf hf]
  | case4 x h => rw [growLoop_eq_of_not h]

/-- **C4.** When a point `p` with `d = dist(root, p)` greater than the root's
covering distance is inserted into a non-empty tree: while
`d > 2 * coveringDistance(current root)`, either the root is a leaf and its
level is raised by one, or a leaf node is located and detached from its
parent and promoted to be the new root one level higher — the previous root,
keeping its remaining subtrees and every existing point, becoming the new
root's sole child — after which `d` is recomputed against the new root;
once the loop exits, `p` itself becomes the root, one level higher than the
just-stabilized root, with the previous root as its sole child. -/
theorem claim_C4 {P : Type} (dist : P → P → ℚ) (p : P) (n : Node P) :
    (n.coveringDistance < dist n.point p →
       (n.insert dist p).point = p ∧
       (n.insert dist p).level = (growLoop dist p n).level + 1 ∧
       (n.insert dist p).children = [growLoop dist p n] ∧
       pointsM (n.insert dist p) = p ::ₘ pointsM n) ∧
    (2 * n.coveringDistance < dist n.point p →
       (n.children = [] →
          growLoop dist p n = growLoop dist p (Node.mk n.point (n.level + 1) [])) ∧
       (n.children ≠ [] → ∃ n2, findLeafRemove n = some n2 ∧
          growLoop dist p n = growLoop dist p n2 ∧
          n2.level = n.level + 1 ∧ n2.point ∈ leafPointsM n ∧
          pointsM n2 = pointsM n ∧
          ∃ cs2, n2.children = [Node.mk n.point n.level cs2])) ∧
    (¬ 2 * n.coveringDistance < dist n.point p → growLoop dist p n = n) := by
  refine ⟨?_, ?_, growLoop_eq_of_not⟩
  · intro hd
    rw [Node.insert, if_pos hd]
    refine ⟨rfl, rfl, rfl, ?_⟩
    show pointsM (Node.mk p ((growLoop dist p n).level + 1) [growLoop dist p n])
      = p ::ₘ pointsM n
    simp [growLoop_pointsM dist p n]
  · intro hd
    constructor
    · intro hch
      have hleaf : n.children.isEmpty := by simp [hch]
      rw [growLoop_eq_leaf hd hleaf, hch]
    · intro hch
      obtain ⟨n2, hf, hl, hp, hlp, hcs⟩ := findLeafRemove_spec n hch
      exact ⟨n2, hf,
        growLoop_eq_promote hd (by simpa [List.isEmpty_iff] using hch) hf,
        hl, hlp, hp, hcs⟩

/-- Witness for C4: inserting 10 into the single-node tree storing 0 at
level 0 triggers the growth path (10 exceeds the covering distance 1); the
loop raises the leaf root's level, and the final tree has 10 at the root
with the previous root as sole child. -/
theorem claim_C4_witness :
    ((Node.mk (0 : ℚ) 0 []).insert ratDist 10).point = 10 ∧
    ((Node.mk (0 : ℚ) 0 []).insert ratDist 10).children
      = [growLoop ratDist 10 (Node.mk (0 : ℚ) 0 [])] ∧
    pointsM ((Node.mk (0 : ℚ) 0 []).insert ratDist 10)
      = 10 ::ₘ pointsM (Node.mk (0 : ℚ) 0 []) ∧
    growLoop ratDist 10 (Node.mk (0 : ℚ) 0 [])
      = growLoop ratDist 10 (Node.mk (0 : ℚ) 1 []) := by
  have h1 : (Node.mk (0 : ℚ) 0 []).coveringDistance < ratDist 0 10 := by
    norm_num [Node.coveringDistance, ratDist]
  have h2 : 2 * (Node.mk (0 : ℚ) 0 []).coveringDistance < ratDist 0 10 := by
    norm_num [Node.coveringDistance, ratDist]
  have hc := claim_C4 ratDist 10 (Node.mk (0 : ℚ) 0 [])
  obtain ⟨ha, hb, _⟩ := hc
  obtain ⟨hpt, _, hcl, hpm⟩ := ha h1
  refine ⟨hpt, hcl, hpm, ?_⟩
  have := (hb h2).1 rfl
  simpa using this

/-! ### The breadth-first validity checks (claim C8)

The four check functions of the source traverse the tree with an explicit
`std::queue`, processing one breadth-first layer per round and returning
`false` at the first violation.  On an *empty* tree they push the null
`_root.get()` pointer and dereference it; this failing path is modelled by
`Option` (`none` = the null dereference). -/

theorem sizeL_eq_sum {P : Type} : ∀ cs : List (Node P), sizeL cs = (cs.map sizeN).sum := by
  intro cs
  induction cs with
  | nil => simp
  | cons c cs ih => simp [ih]

theorem flatMap_children_sum_lt {P : Type} :
    ∀ (Q : List (Node P)), Q ≠ [] →
      ((Q.flatMap Node.children).map sizeN).sum < (Q.map sizeN).sum := by
  have hle : ∀ Q : List (Node P),
      ((Q.flatMap Node.children).map sizeN).sum ≤ (Q.map sizeN).sum := by
    intro Q
    induction Q with
    | nil => simp
    | cons q Q ih =>
        simp only [List.flatMap_cons, List.map_append, List.sum_append,
          List.map_cons, List.sum_cons]
        have hq : ((q.children.map sizeN).sum) < sizeN q := by
          cases q with
          | mk a l cs => simp [← sizeL_eq_sum]
        omega
  intro Q hQ
  cases Q with
  | nil => exact absurd rfl hQ
  | cons q Q =>
      simp only [List.flatMap_cons, List.map_append, List.sum_append,
        List.map_cons, List.sum_cons]
      have hq : ((q.children.map sizeN).sum) < sizeN q := by
        cases q with
        | mk a l cs => simp [← sizeL_eq_sum]
      have := hle Q
      omega

/-- One run of `checkLevelInvariant`'s queue loop: each round processes one
breadth-first layer `Q`, requiring every node of the layer to sit at level
`l - 1`, then moves to the layer of all children with the counter
decremented. -/
def checkLevelRounds {P : Type} : List (Node P) → ℤ → Bool
  | [], _ => true
  | q :: Q, l =>
      ((q :: Q).all fun nd => nd.level == l - 1) &&
        checkLevelRounds ((q :: Q).flatMap Node.children) (l - 1)
termination_by Q _ => (Q.map sizeN).sum
decreasing_by
  apply flatMap_children_sum_lt
  simp

/-- `CoverTree::checkLevelInvariant`: breadth-first scan with a per-layer
level counter initialized to `_root->_level + 1`.  On an empty tree the
source dereferences the null root pointer (`none`). -/
def checkLevelInvariant {P : Type} (t : Option (Node P)) : Option Bool :=
  match t with
  | none => none
  | some root => some (checkLevelRounds [root] (root.level + 1))

/-- One run of `checkCoveringInvariant`'s queue loop. -/
def checkCovRounds {P : Type} (dist : P → P → ℚ) : List (Node P) → Bool
  | [] => true
  | q :: Q =>
      ((q :: Q).all fun nd => nd.children.all fun c =>
          decide (dist nd.point c.point ≤ nd.coveringDistance)) &&
        checkCovRounds dist ((q :: Q).flatMap Node.children)
termination_by Q => (Q.map sizeN).sum
decreasing_by
  apply flatMap_children_sum_lt
  simp

/-- `CoverTree::checkCoveringInvariant`: breadth-first scan returning
`false` at the first parent/child pair farther apart than the parent's
covering distance. -/
def checkCoveringInvariant {P : Type} (dist : P → P → ℚ) (t : Option (Node P)) :
    Option Bool :=
  match t with
  | none => none
  | some root => some (checkCovRounds dist [root])

/-- One run of `checkSeparatingInvariant`'s queue loop. -/
def checkSepRounds {P : Type} (dist : P → P → ℚ) : List (Node P) → Bool
  | [] => true
  | q :: Q =>
      ((q :: Q).all fun nd =>
          sepPairsB dist nd.separatingDistance nd.children) &&
        checkSepRounds dist ((q :: Q).flatMap Node.children)
termination_by Q => (Q.map sizeN).sum
decreasing_by
  apply flatMap_children_sum_lt
  simp

/-- `CoverTree::checkSeparatingInvariant`: breadth-first scan returning
`false` at the first sibling pair not farther apart than the parent's
separating distance. -/
def checkSeparatingInvariant {P : Type} (dist : P → P → ℚ) (t : Option (Node P)) :
    Option Bool :=
  match t with
  | none => none
  | some root => some (checkSepRounds dist [root])

/-- `CoverTree::isValid`: the conjunction of the three checks. -/
def isValid {P : Type} (dist : P → P → ℚ) (t : Option (Node P)) : Option Bool :=
  match checkLevelInvariant t, checkCoveringInvariant dist t,
      checkSeparatingInvariant dist t with
  | some a, some b, some c => some (a && b && c)
  | _, _, _ => none

theorem list_all_and {α : Type} (f g : α → Bool) :
    ∀ l : List α, (l.all fun x => f x && g x) = (l.all f && l.all g) := by
  intro l
  induction l with
  | nil => simp
  | cons a l ih =>
      simp only [List.all_cons, ih]
      cases f a <;> cases g a <;> cases l.all f <;> cases l.all g <;> rfl

theorem list_all_flatMap {α β : Type} (f : α → List β) (p : β → Bool) :
    ∀ l : List α, ((l.flatMap f).all p) = l.all fun x => (f x).all p := by
  intro l
  induction l with
  | nil => simp
  | cons a l ih => simp [List.all_append, ih]

theorem list_all_congr {α : Type} {l : List α} {f g : α → Bool}
    (h : ∀ x ∈ l, f x = g x) : l.all f = l.all g := by
  induction l with
  | nil => rfl
  | cons a l ih =>
      simp only [List.all_cons, h a (by simp)]
      rw [ih (fun x hx => h x (by simp [hx]))]

mutual
/-- All nodes of the tree at breadth-first depth `k` have level `x - k`
(the property the level check actually verifies layer by layer). -/
def uniformLevels {P : Type} : Node P → ℤ → Bool
  | .mk _ l cs, x => (l == x) && uniformLevelsL cs (x - 1)
def uniformLevelsL {P : Type} : List (Node P) → ℤ → Bool
  | [], _ => true
  | c :: cs, x => uniformLevels c x && uniformLevelsL cs x
end

theorem uniformLevelsL_eq_all {P : Type} :
    ∀ (cs : List (Node P)) (x : ℤ), uniformLevelsL cs x = cs.all (uniformLevels · x) := by
  intro cs x
  induction cs with
  | nil => simp [uniformLevelsL]
  | cons c cs ih => simp [uniformLevelsL, ih]

theorem uniformLevels_def {P : Type} (nd : Node P) (x : ℤ) :
    uniformLevels nd x = ((nd.level == x) && uniformLevelsL nd.children (x - 1)) := by
  cases nd with
  | mk q l cs => simp [uniformLevels]

theorem uniformLevels_eq {P : Type} :
    ∀ (N : ℕ) (n : Node P), sizeN n ≤ N → ∀ x : ℤ,
      uniformLevels n x = ((n.level == x) && levelInvB n) := by
  intro N
  induction N with
  | zero => intro n h; have := sizeN_pos n; omega
  | succ N ih =>
      intro n hsz x
      cases n with
      | mk q l cs =>
          have hcs : ∀ c ∈ cs, sizeN c ≤ N := by
            intro c hc
            have := sizeN_le_sizeL_of_mem hc
            simp at hsz
            omega
          rw [uniformLevels, uniformLevelsL_eq_all, levelInvB, levelInvL_eq_all]
          by_cases hx : l = x
          · subst hx
            simp only [beq_self_eq_true, Bool.true_and, Node.level_mk]
            have hl : cs.all (fun c => uniformLevels c (l - 1))
                = cs.all (fun c => (c.level == l - 1) && levelInvB c) :=
              list_all_congr (fun c hc => ih c (hcs c hc) (l - 1))
            rw [hl]
            exact list_all_and _ _ _
          · have hbx : (l == x) = false := by simp [hx]
            simp [Node.level_mk, hbx]

theorem checkLevelRounds_eq {P : Type} :
    ∀ (Q : List (Node P)) (l : ℤ),
      checkLevelRounds Q l = Q.all (uniformLevels · (l - 1)) := by
  intro Q l
  induction Q, l using checkLevelRounds.induct with
  | case1 l => simp [checkLevelRounds]
  | case2 q Q l ih =>
      have hr : ((q :: Q).all fun nd => uniformLevels nd (l - 1))
          = ((q :: Q).all fun nd =>
              (nd.level == l - 1) &&
                nd.children.all (fun c => uniformLevels c (l - 1 - 1))) := by
        apply list_all_congr
        intro c _
        rw [uniformLevels_def, uniformLevelsL_eq_all]
      rw [checkLevelRounds, ih, list_all_flatMap, hr]
      exact (list_all_and _ _ _).symm

theorem checkLevelInvariant_some {P : Type} (root : Node P) :
    checkLevelInvariant (some root) = some (levelInvB root) := by
  rw [checkLevelInvariant, checkLevelRounds_eq]
  simp only [List.all_cons, List.all_nil, Bool.and_true]
  rw [add_sub_cancel_right, uniformLevels_eq (sizeN root) root le_rfl root.level]
  simp

theorem covInvB_eq_local {P : Type} (dist : P → P → ℚ) (n : Node P) :
    covInvB dist n
      = ((n.children.all fun c =>
            decide (dist n.point c.point ≤ n.coveringDistance))
          && n.children.all (covInvB dist)) := by
  cases n with
  | mk q l cs => rw [covInvB, covInvL_eq_all]; rfl

theorem checkCovRounds_eq {P : Type} (dist : P → P → ℚ) :
    ∀ Q : List (Node P), checkCovRounds dist Q = Q.all (covInvB dist) := by
  intro Q
  induction Q using checkCovRounds.induct dist with
  | case1 => simp [checkCovRounds]
  | case2 q Q ih =>
      have hr : ((q :: Q).all (covInvB dist))
          = ((q :: Q).all fun nd =>
              (nd.children.all fun c =>
                decide (dist nd.point c.point ≤ nd.coveringDistance)) &&
              nd.children.all (covInvB dist)) := by
        apply list_all_congr
        intro c _
        rw [covInvB_eq_local]
      rw [checkCovRounds, ih, list_all_flatMap, hr]
      exact (list_all_and _ _ _).symm

theorem checkCoveringInvariant_some {P : Type} (dist : P → P → ℚ) (root : Node P) :
    checkCoveringInvariant dist (some root) = some (covInvB dist root) := by
  rw [checkCoveringInvariant, checkCovRounds_eq]
  simp

theorem sepInvB_eq_local {P : Type} (dist : P → P → ℚ) (n : Node P) :
    sepInvB dist n
      = (sepPairsB dist n.separatingDistance n.children
          && n.children.all (sepInvB dist)) := by
  cases n with
  | mk q l cs => rw [sepInvB, sepInvL_eq_all]; rfl

theorem checkSepRounds_eq {P : Type} (dist : P → P → ℚ) :
    ∀ Q : List (Node P), checkSepRounds dist Q = Q.all (sepInvB dist) := by
  intro Q
  induction Q using checkSepRounds.induct dist with
  | case1 => simp [checkSepRounds]
  | case2 q Q ih =>
      have hr : ((q :: Q).all (sepInvB dist))
          = ((q :: Q).all fun nd =>
              sepPairsB dist nd.separatingDistance nd.children &&
              nd.children.all (sepInvB dist)) := by
        apply list_all_congr
        intro c _
        rw [sepInvB_eq_local]
      rw [checkSepRounds, ih, list_all_flatMap, hr]
      exact (list_all_and _ _ _).symm

theorem checkSeparatingInvariant_some {P : Type} (dist : P → P → ℚ) (root : Node P) :
    checkSeparatingInvariant dist (some root) = some (sepInvB dist root) := by
  rw [checkSeparatingInvariant, checkSepRounds_eq]
  simp

/-- **C8 (amended).** On every *non-empty* cover tree the validity checks
run to completion without failing and without mutating the tree (they are
pure functions of it): each returns `some b` where `b` is `true` exactly
when the corresponding invariant holds everywhere in the tree
(equivalently, `false` exactly when the breadth-first scan meets a
violation), and `isValid` is the conjunction of the three checks.  On the
*empty* tree the claim as stated fails: each check dereferences the null
`_root` pointer (see the counterexample). -/
theorem claim_C8 {P : Type} (dist : P → P → ℚ) (root : Node P) :
    checkLevelInvariant (some root) = some (levelInvB root) ∧
    checkCoveringInvariant dist (some root) = some (covInvB dist root) ∧
    checkSeparatingInvariant dist (some root) = some (sepInvB dist root) ∧
    isValid dist (some root)
      = some (levelInvB root && covInvB dist root && sepInvB dist root) := by
  refine ⟨checkLevelInvariant_some root, checkCoveringInvariant_some dist root,
    checkSeparatingInvariant_some dist root, ?_⟩
  rw [isValid, checkLevelInvariant_some, checkCoveringInvariant_some,
    checkSeparatingInvariant_some]

/-- Counterexample for C8 as stated ("for every CoverTree ... never
raises"): on the empty cover tree every check (and `isValid`) dereferences
the null root pointer instead of returning a boolean — modelled by `none`. -/
theorem claim_C8_counterexample :
    checkLevelInvariant (none : Option (Node ℚ)) = none ∧
    checkCoveringInvariant ratDist (none : Option (Node ℚ)) = none ∧
    checkSeparatingInvariant ratDist (none : Option (Node ℚ)) = none ∧
    isValid ratDist (none : Option (Node ℚ)) = none :=
  ⟨rfl, rfl, rfl, rfl⟩

/-! ## The Vietoris--Rips expander (`RipsExpander`)

The `Simplex` and `SimplicialComplex` classes are external collaborators of
the expander (their headers are not part of the surveyed core), so they are
modelled from the specification: a simplex is an ordered set of unique
vertex identifiers plus a mutable scalar filtration weight, and a
simplicial complex is an ordered, dimension-groupable container of
simplices with membership lookup by vertex set.  Vertices are `ℕ`, weights
(`DataType`) are `ℚ`, and a freshly constructed simplex carries the
default-initialized weight `0`. -/

/-- Insert a vertex into a sorted duplicate-free list, keeping it sorted and
duplicate-free. -/
def sortedInsert (x : ℕ) : List ℕ → List ℕ
  | [] => [x]
  | y :: ys =>
      if x < y then x :: y :: ys
      else if x = y then y :: ys
      else y :: sortedInsert x ys

/-- Canonical ordered-set form of a vertex list. -/
def sortList (l : List ℕ) : List ℕ := l.foldr sortedInsert []

/-- Modelled from the spec: a `Simplex` is an immutable ordered vertex
sequence (`verts`, kept sorted and duplicate-free by construction) plus a
mutable scalar weight (`data`). -/
structure Simplex where
  verts : List ℕ
  data : ℚ
deriving DecidableEq, Repr

/-- Modelled from the spec: `Simplex::dimension()` is the number of vertices
minus one. -/
def Simplex.dimension (s : Simplex) : ℕ := s.verts.length - 1

/-- Modelled from the spec: constructing a `Simplex` from a vertex range
sorts and deduplicates the vertices and default-initializes the weight. -/
def mkSimplex (l : List ℕ) : Simplex := ⟨sortList l, 0⟩

/-- Modelled from the spec: a `SimplicialComplex` is an ordered container of
simplices. -/
abbrev SimplicialComplex : Type := List Simplex

/-- Modelled from the spec: `SimplicialComplex::vertices` collects the
vertices of all simplices into a `std::set` (sorted, duplicate-free). -/
def vertsOf (K : SimplicialComplex) : List ℕ := sortList (K.flatMap Simplex.verts)

/-- Modelled from the spec: membership lookup by vertex set
(`SimplicialComplex::find`). -/
def findByVerts (K : SimplicialComplex) (vs : List ℕ) : Option Simplex :=
  K.find? (fun t => t.verts = vs)

/-- Point-update of a lower-neighbour map (`lowerNeighbours[v].insert(u)`;
the `std::unordered_set` values are modelled as sorted duplicate-free
lists). -/
def lnInsert (m : ℕ → List ℕ) (v u : ℕ) : ℕ → List ℕ :=
  fun w => if w = v then sortedInsert u (m w) else m w

/-- `RipsExpander::getLowerNeighbours`: traverse the 1-skeleton; for each
edge, add the smaller endpoint to the lower-neighbour set of the larger
one. -/
def getLowerNeighbours (K : SimplicialComplex) : ℕ → List ℕ :=
  (K.filter (fun s => s.dimension == 1)).foldl
    (fun m e =>
      match e.verts with
      | u :: v :: _ => if u < v then lnInsert m v u else lnInsert m u v
      | _ => m)
    (fun _ => [])

/-- `RipsExpander::intersect`: iterate over the smaller of the two sets and
keep the elements contained in the other. -/
def intersect (U V : List ℕ) : List ℕ :=
  if U.length > V.length then V.filter (fun u => u ∈ U) else U.filter (fun u => u ∈ V)

mutual
/-- `RipsExpander::addCofaces`: if the current simplex has reached the
dimension bound, stop; otherwise, for every neighbour, emit the coface
obtained by adding that neighbour as a vertex and recurse on the common
lower neighbours.  The running simplex is carried as the raw vertex list
`s` (always duplicate-free in every reachable call, so `s.length - 1` is
its dimension). -/
def addCofaces (ln : ℕ → List ℕ) (dim : ℕ) (s : List ℕ) (nbrs : List ℕ) :
    List Simplex :=
  if h : dim ≤ s.length - 1 then []
  else addCofacesGo ln dim s nbrs (by omega) nbrs
termination_by (dim + 1 - s.length, nbrs.length + 1)
/-- The `for( auto&& neighbour : neighbours )` loop of `addCofaces`;
`rem` is the not-yet-visited part of the neighbour set `nbrs`. -/
def addCofacesGo (ln : ℕ → List ℕ) (dim : ℕ) (s : List ℕ) (nbrs : List ℕ)
    (h : s.length ≤ dim) : List ℕ → List Simplex
  | [] => []
  | n :: rest =>
      mkSimplex (s ++ [n]) ::
        ((if (ln n).isEmpty then []
          else addCofaces ln dim (s ++ [n]) (intersect (ln n) nbrs)) ++
         addCofacesGo ln dim s nbrs h rest)
termination_by rem => (dim + 1 - s.length, rem.length)
end

/-- `RipsExpander::operator()`: emit every vertex simplex and its cofaces
(via the lower-neighbour expansion), then re-assign the weights of those
simplices of dimension at most 1 that already occur in the input complex. -/
def ripsExpansion (K : SimplicialComplex) (dim : ℕ) : SimplicialComplex :=
  let lowerNeighbours := getLowerNeighbours K
  let simplices := (vertsOf K).flatMap (fun v =>
    mkSimplex [v] ::
      (if (lowerNeighbours v).isEmpty then []
       else addCofaces lowerNeighbours dim [v] (lowerNeighbours v)))
  simplices.map (fun s =>
    if s.dimension ≤ 1 then
      match findByVerts K s.verts with
      | some t => { s with data := t.data }
      | none => s
    else s)

/-- Upper bound on the vertex counts of the simplices of `K` (so every
dimension occurring in `K` is below it). -/
def maxVertCount (K : SimplicialComplex) : ℕ :=
  (K.map (fun s => s.verts.length)).foldr max 0

/-- Modelled from the spec: iterating a `SimplicialComplex` from
`begin_dimension()` to `end_dimension()` visits the simplices grouped by
ascending dimension (stable within one dimension). -/
def byDim (K : SimplicialComplex) : SimplicialComplex :=
  (List.range (maxVertCount K)).flatMap
    (fun d => K.filter (fun s => s.dimension = d))

/-- `RipsExpander::assignMaximumWeight`: traverse the complex in ascending
dimension; a simplex above `minDimension` gets as weight the maximum of its
own weight and the weights of those boundary faces already present in the
output complex; all other simplices are copied unchanged. -/
def assignMaximumWeight (K : SimplicialComplex) (minDimension : ℕ := 1) :
    SimplicialComplex :=
  (byDim K).foldl
    (fun S s =>
      if minDimension < s.dimension then
        let w := (List.range s.verts.length).foldl
          (fun w k =>
            match findByVerts S (s.verts.eraseIdx k) with
            | some t => max w t.data
            | none => w)
          s.data
        S ++ [{ s with data := w }]
      else S ++ [s])
    []

/-- `RipsExpander::assignData`: give every simplex the weight obtained by
folding `functor` over the data values of its vertices (indexed by the
position of the vertex in the sorted vertex set of `K`), starting from
`init`.  An out-of-range read of the value vector — undefined behaviour in
the source when fewer values than vertices are supplied — is modelled by
`none`. -/
def assignData (K : SimplicialComplex) (vals : List ℚ) (init : ℚ)
    (functor : ℚ → ℚ → ℚ) : Option SimplicialComplex :=
  let verts := vertsOf K
  K.mapM (fun s =>
    (s.verts.foldlM
      (fun acc v =>
        match vals[verts.indexOf v]? with
        | some x => some (functor acc x)
        | none => none)
      init).map
      (fun d => { s with data := d }))

/-- `RipsExpander::assignMaximumData`: the max-specialized wrapper around
`assignData`.  `std::numeric_limits<DataType>::lowest()` has no counterpart
in `ℚ`, so the initial value is passed as the parameter `lowest`
(theorems constrain it to be a lower bound of the supplied values, which
holds for every IEEE `double`). -/
def assignMaximumData (lowest : ℚ) (K : SimplicialComplex) (vals : List ℚ) :
    Option SimplicialComplex :=
  assignData K vals lowest (fun a b => max a b)

/-! ### Basic properties of the sorted vertex lists -/

theorem mem_sortedInsert (x y : ℕ) : ∀ l : List ℕ, (y ∈ sortedInsert x l ↔ y = x ∨ y ∈ l) := by
  intro l
  induction l with
  | nil => simp [sortedInsert]
  | cons z l ih =>
      rw [sortedInsert]
      by_cases h1 : x < z
      · simp [h1]
      · rw [if_neg h1]
        by_cases h2 : x = z
        · subst h2
          rw [if_pos rfl]
          simp only [List.mem_cons]
          tauto
        · rw [if_neg h2]
          simp only [List.mem_cons, ih]
          tauto

theorem sortedInsert_sorted (x : ℕ) :
    ∀ l : List ℕ, l.Sorted (· < ·) → (sortedInsert x l).Sorted (· < ·) := by
  intro l
  induction l with
  | nil => intro _; simp [sortedInsert]
  | cons z l ih =>
      intro hs
      rw [List.sorted_cons] at hs
      obtain ⟨hz, hl⟩ := hs
      rw [sortedInsert]
      by_cases h1 : x < z
      · rw [if_pos h1]
        rw [List.sorted_cons]
        refine ⟨?_, List.sorted_cons.mpr ⟨hz, hl⟩⟩
        intro b hb
        rcases List.mem_cons.mp hb with h | h
        · subst h; exact h1
        · exact lt_trans h1 (hz b h)
      · rw [if_neg h1]
        by_cases h2 : x = z
        · rw [if_pos h2]
          exact List.sorted_cons.mpr ⟨hz, hl⟩
        · rw [if_neg h2]
          rw [List.sorted_cons]
          refine ⟨?_, ih hl⟩
          intro b hb
          rcases (mem_sortedInsert x b l).mp hb with h | h
          · subst h; omega
          · exact hz b h

theorem sortList_sorted (l : List ℕ) : (sortList l).Sorted (· < ·) := by
  induction l with
  | nil => simp [sortList]
  | cons x l ih => exact sortedInsert_sorted x (sortList l) ih

theorem mem_sortList (y : ℕ) : ∀ l : List ℕ, (y ∈ sortList l ↔ y ∈ l) := by
  intro l
  induction l with
  | nil => simp [sortList]
  | cons x l ih =>
      show y ∈ sortedInsert x (sortList l) ↔ _
      rw [mem_sortedInsert, ih]
      simp

theorem sortList_nodup (l : List ℕ) : (sortList l).Nodup :=
  (sortList_sorted l).nodup

theorem sorted_eq_of_mem_iff {l₁ l₂ : List ℕ} (h₁ : l₁.Sorted (· < ·))
    (h₂ : l₂.Sorted (· < ·)) (h : ∀ x, x ∈ l₁ ↔ x ∈ l₂) : l₁ = l₂ := by
  apply List.eq_of_perm_of_sorted _ h₁ h₂
  exact (List.perm_ext_iff_of_nodup h₁.nodup h₂.nodup).mpr h

theorem sortList_eq_self {l : List ℕ} (h : l.Sorted (· < ·)) : sortList l = l :=
  sorted_eq_of_mem_iff (sortList_sorted l) h (fun x => mem_sortList x l)

@[simp] theorem sortList_singleton (v : ℕ) : sortList [v] = [v] := rfl

/-! ### Shape of the simplices emitted by `addCofaces` -/

theorem addCofaces_shape (ln : ℕ → List ℕ) (dim : ℕ) :
    ∀ (s nbrs : List ℕ), ∀ t ∈ addCofaces ln dim s nbrs, ∃ l, t = mkSimplex l := by
  apply addCofaces.induct ln dim
    (fun s nbrs => ∀ t ∈ addCofaces ln dim s nbrs, ∃ l, t = mkSimplex l)
    (fun s nbrs h rem =>
      ∀ t ∈ addCofacesGo ln dim s nbrs h rem, ∃ l, t = mkSimplex l)
  · intro s nbrs hguard t ht
    rw [addCofaces, dif_pos hguard] at ht
    simp at ht
  · intro s nbrs hguard ih t ht
    rw [addCofaces, dif_neg hguard] at ht
    exact ih t ht
  · intro s nbrs h t ht
    rw [addCofacesGo] at ht
    simp at ht
  · intro s nbrs h y ys ih1 ih2 t ht
    rw [addCofacesGo] at ht
    rcases List.mem_cons.mp ht with hh | hh
    · exact ⟨s ++ [y], hh⟩
    · rcases List.mem_append.mp hh with hh2 | hh2
      · by_cases hy : (ln y).isEmpty
        · rw [if_pos hy] at hh2; simp at hh2
        · rw [if_neg hy] at hh2
          exact ih1 t hh2
      · exact ih2 t hh2

theorem enum_data_zero {K : SimplicialComplex} {dim : ℕ} {s : Simplex}
    (hs : s ∈ (vertsOf K).flatMap (fun v =>
      mkSimplex [v] ::
        (if (getLowerNeighbours K v).isEmpty then []
         else addCofaces (getLowerNeighbours K) dim [v] (getLowerNeighbours K v)))) :
    s.data = 0 := by
  obtain ⟨v, _, hmem⟩ := List.mem_flatMap.mp hs
  rcases List.mem_cons.mp hmem with h | h
  · rw [h]; rfl
  · by_cases hv : (getLowerNeighbours K v).isEmpty
    · rw [if_pos hv] at h; simp at h
    · rw [if_neg hv] at h
      obtain ⟨l, hl⟩ := addCofaces_shape (getLowerNeighbours K) dim [v]
        (getLowerNeighbours K v) s h
      rw [hl]; rfl

/-- **C7.** In the complex returned by the Rips expansion, every simplex of
dimension at most 1 that already existed in `K` (identified by its vertex
set) carries the same weight it had in `K`, and every newly synthesized
simplex of dimension at least 2 receives no weight from this pass (it keeps
the default-constructed weight `0`).  `K` is assumed to contain no two
simplices with the same vertex set (so that "the weight it had in K" is
well defined). -/
theorem claim_C7 (K : SimplicialComplex) (D : ℕ)
    (hnd : (K.map Simplex.verts).Nodup) :
    ∀ t ∈ ripsExpansion K D,
      (t.dimension ≤ 1 → ∀ u ∈ K, u.verts = t.verts → t.data = u.data) ∧
      (2 ≤ t.dimension → t.data = 0) := by
  intro t ht
  simp only [ripsExpansion] at ht
  obtain ⟨s, hs, hts⟩ := List.mem_map.mp ht
  have hdz : s.data = 0 := enum_data_zero hs
  by_cases hdim : s.dimension ≤ 1
  · rw [if_pos hdim] at hts
    cases hf : findByVerts K s.verts with
    | some u2 =>
        rw [hf] at hts
        have hu2K : u2 ∈ K := List.mem_of_find?_eq_some hf
        have hu2v : u2.verts = s.verts := by
          have := List.find?_some hf
          simpa using this
        constructor
        · intro _ u huK huv
          have htv : t.verts = s.verts := by rw [← hts]
          have : u = u2 := List.inj_on_of_nodup_map hnd huK hu2K (by rw [huv, htv, hu2v])
          rw [this, ← hts]
        · intro h2
          exfalso
          have htv : t.verts = s.verts := by rw [← hts]
          have : t.dimension = s.dimension := by rw [Simplex.dimension, Simplex.dimension, htv]
          omega
    | none =>
        rw [hf] at hts
        constructor
        · intro _ u huK huv
          exfalso
          have := List.find?_eq_none.mp hf u huK
          apply this
          simp only [decide_eq_true_eq]
          rw [huv, ← hts]
        · intro h2
          rw [← hts]
          exact hdz
  · rw [if_neg hdim] at hts
    constructor
    · intro h1
      exfalso
      have : t.dimension = s.dimension := by rw [Simplex.dimension, Simplex.dimension, ← hts]
      omega
    · intro _
      rw [← hts]
      exact hdz

/-- Witness for C7: expanding the complex with vertices 1, 2 and the edge
`{1,2}` of weight 5; the edge of the output carries weight 5 again. -/
theorem claim_C7_witness :
    ((([⟨[1], 0⟩, ⟨[2], 0⟩, ⟨[1, 2], 5⟩] : SimplicialComplex).map
        Simplex.verts).Nodup) ∧
    (Simplex.mk [1, 2] 5)
        ∈ ripsExpansion [⟨[1], 0⟩, ⟨[2], 0⟩, ⟨[1, 2], 5⟩] 2 ∧
    (Simplex.mk [1, 2] 5).data = (Simplex.mk [1, 2] (5 : ℚ)).data := by
  have hnd : (([⟨[1], 0⟩, ⟨[2], 0⟩, ⟨[1, 2], 5⟩] : SimplicialComplex).map
      Simplex.verts).Nodup := by decide
  have hmem : (Simplex.mk [1, 2] 5)
      ∈ ripsExpansion [⟨[1], 0⟩, ⟨[2], 0⟩, ⟨[1, 2], 5⟩] 2 := by
    simp only [ripsExpansion]
    norm_num [vertsOf, getLowerNeighbours, sortList, sortedInsert, Simplex.dimension,
      lnInsert, addCofaces, addCofacesGo, intersect, mkSimplex, findByVerts,
      List.find?, List.filter, List.foldl, List.flatMap]
  have := (claim_C7 [⟨[1], 0⟩, ⟨[2], 0⟩, ⟨[1, 2], 5⟩] 2 hnd
    (Simplex.mk [1, 2] 5) hmem).1 (by decide) ⟨[1, 2], 5⟩ (by simp) rfl
  exact ⟨hnd, hmem, this⟩

/-! ### Data assignment (claim C6) -/

theorem mem_vertsOf {K : SimplicialComplex} {v : ℕ} :
    v ∈ vertsOf K ↔ ∃ s ∈ K, v ∈ s.verts := by
  rw [vertsOf, mem_sortList, List.mem_flatMap]

/-- Replace the weight of a simplex (`Simplex::setData`). -/
def Simplex.setData (s : Simplex) (d : ℚ) : Simplex := { s with data := d }

/-- The value the source reads for vertex `v`: the entry of the supplied
sequence at the position of `v` in the sorted vertex set of `K`. -/
def vertexValue (K : SimplicialComplex) (vals : List ℚ) (v : ℕ) : ℚ :=
  vals.getD ((vertsOf K).indexOf v) 0

theorem foldlM_assignData {K : SimplicialComplex} {vals : List ℚ}
    {f : ℚ → ℚ → ℚ}
    (hread : ∀ v : ℕ, v ∈ vertsOf K →
      vals[(vertsOf K).indexOf v]? = some (vertexValue K vals v)) :
    ∀ (vs : List ℕ), (∀ v ∈ vs, v ∈ vertsOf K) → ∀ (acc : ℚ),
      (vs.foldlM
        (fun acc v =>
          match vals[(vertsOf K).indexOf v]? with
          | some x => some (f acc x)
          | none => none)
        acc : Option ℚ)
        = some (vs.foldl (fun acc v => f acc (vertexValue K vals v)) acc) := by
  intro vs
  induction vs with
  | nil => intro _ acc; rfl
  | cons v vs ih =>
      intro hmem acc
      rw [List.foldlM_cons, hread v (hmem v (by simp))]
      show (vs.foldlM _ (f acc (vertexValue K vals v)) : Option ℚ) = _
      rw [ih (fun u hu => hmem u (by simp [hu])) (f acc (vertexValue K vals v))]
      rfl

theorem list_mapM_eq_map {α β : Type} {g : α → Option β} {h : α → β} :
    ∀ {l : List α}, (∀ x ∈ l, g x = some (h x)) → l.mapM g = some (l.map h) := by
  intro l
  induction l with
  | nil => intro _; rfl
  | cons x l ih =>
      intro hall
      rw [List.mapM_cons, hall x (by simp), ih (fun y hy => hall y (by simp [hy]))]
      rfl

theorem foldl_max_le {xs : List ℚ} : ∀ {a : ℚ},
    a ≤ xs.foldl max a ∧ ∀ x ∈ xs, x ≤ xs.foldl max a := by
  induction xs with
  | nil => intro a; simp
  | cons x xs ih =>
      intro a
      rw [List.foldl_cons]
      obtain ⟨h1, h2⟩ := @ih (max a x)
      refine ⟨le_trans (le_max_left a x) h1, ?_⟩
      intro y hy
      rcases List.mem_cons.mp hy with h | h
      · subst h; exact le_trans (le_max_right a y) h1
      · exact h2 y h

theorem foldl_max_mem {xs : List ℚ} : ∀ {a : ℚ},
    xs.foldl max a = a ∨ xs.foldl max a ∈ xs := by
  induction xs with
  | nil => intro a; simp
  | cons x xs ih =>
      intro a
      rw [List.foldl_cons]
      rcases @ih (max a x) with h | h
      · rw [h]
        rcases max_cases a x with ⟨he, _⟩ | ⟨he, _⟩
        · exact Or.inl he
        · exact Or.inr (by simp [he])
      · exact Or.inr (by simp [h])

/-- **C6 (amended).** Provided the vertex-value sequence supplies at least
one value per distinct vertex of `K` (the source reads out of bounds
otherwise), `assignData` succeeds and gives every simplex `s` the weight
obtained by folding `combineFn` over the values of the vertices of `s`
(each vertex indexed by its position in the sorted vertex set) starting
from `initialValue`; and `assignMaximumData`, whose initial value is a
lower bound of all supplied values (as `numeric_limits::lowest()` is for
`double`), gives every non-empty simplex the maximum of its vertex
values. -/
theorem claim_C6 (K : SimplicialComplex) (vals : List ℚ) (init : ℚ)
    (f : ℚ → ℚ → ℚ) (lowest : ℚ)
    (hlen : (vertsOf K).length ≤ vals.length)
    (hlow : ∀ x ∈ vals, lowest ≤ x) :
    (assignData K vals init f
      = some (K.map (fun s => s.setData
          (s.verts.foldl (fun acc v => f acc (vertexValue K vals v)) init)))) ∧
    (∃ S, assignMaximumData lowest K vals = some S ∧
      ∀ t ∈ S, ∃ s ∈ K, t.verts = s.verts ∧
        (s.verts ≠ [] →
          t.data ∈ s.verts.map (vertexValue K vals) ∧
          ∀ v ∈ s.verts, vertexValue K vals v ≤ t.data)) := by
  have hread : ∀ v : ℕ, v ∈ vertsOf K →
      vals[(vertsOf K).indexOf v]? = some (vertexValue K vals v) := by
    intro v hv
    have hidx : (vertsOf K).indexOf v < (vertsOf K).length :=
      List.indexOf_lt_length.mpr hv
    have hlt : (vertsOf K).indexOf v < vals.length := by omega
    rw [List.getElem?_eq_getElem hlt, vertexValue, List.getD_eq_getElem vals 0 hlt]
  have hdata : ∀ (g : ℚ → ℚ → ℚ) (a : ℚ),
      assignData K vals a g
        = some (K.map (fun s => s.setData
            (s.verts.foldl (fun acc v => g acc (vertexValue K vals v)) a))) := by
    intro g a
    rw [assignData]
    apply list_mapM_eq_map
    intro s hsK
    rw [foldlM_assignData hread s.verts
      (fun v hv => mem_vertsOf.mpr ⟨s, hsK, hv⟩) a]
    rfl
  refine ⟨hdata f init, ?_⟩
  refine ⟨_, hdata (fun a b => max a b) lowest, ?_⟩
  intro t ht
  obtain ⟨s, hsK, hst⟩ := List.mem_map.mp ht
  refine ⟨s, hsK, by rw [← hst]; rfl, ?_⟩
  intro hne
  have hfold : t.data = (s.verts.map (vertexValue K vals)).foldl max lowest := by
    rw [← hst]
    show s.verts.foldl (fun acc v => max acc (vertexValue K vals v)) lowest = _
    symm
    rw [List.foldl_map]
  have hlow2 : ∀ v ∈ s.verts, lowest ≤ vertexValue K vals v := by
    intro v hv
    have hvK : v ∈ vertsOf K := mem_vertsOf.mpr ⟨s, hsK, hv⟩
    have hidx : (vertsOf K).indexOf v < (vertsOf K).length :=
      List.indexOf_lt_length.mpr hvK
    have hlt : (vertsOf K).indexOf v < vals.length := by omega
    apply hlow
    rw [vertexValue, List.getD_eq_getElem vals 0 hlt]
    exact List.getElem_mem hlt
  constructor
  · rw [hfold]
    rcases (@foldl_max_mem (s.verts.map (vertexValue K vals)) lowest) with h | h
    · obtain ⟨v0, hv0⟩ := List.exists_mem_of_ne_nil s.verts hne
      have h1 : vertexValue K vals v0
          ≤ (s.verts.map (vertexValue K vals)).foldl max lowest :=
        (@foldl_max_le (s.verts.map (vertexValue K vals)) lowest).2 _
          (List.mem_map_of_mem _ hv0)
      rw [h] at h1
      have h2 := hlow2 v0 hv0
      have hev : vertexValue K vals v0 = lowest := le_antisymm h1 h2
      rw [h, ← hev]
      exact List.mem_map_of_mem _ hv0
    · exact h
  · intro v hv
    rw [hfold]
    exact (@foldl_max_le (s.verts.map (vertexValue K vals)) lowest).2
      (vertexValue K vals v) (List.mem_map_of_mem _ hv)

/-- Counterexample for C6 as stated: with one vertex and an *empty* value
sequence, the source performs an out-of-bounds read of the value vector
(undefined behaviour); the model returns `none` instead of assigning any
folded weight. -/
theorem claim_C6_counterexample :
    assignData [⟨[0], 5⟩] [] 0 (fun a b => max a b) = none := by rfl

/-- Witness for C6 (amended): one vertex, one value. -/
theorem claim_C6_witness :
    (vertsOf [⟨[0], 5⟩]).length ≤ [(7 : ℚ)].length ∧
    assignData [⟨[0], 5⟩] [(7 : ℚ)] 0 (fun a b => a + b)
      = some (([⟨[0], 5⟩] : SimplicialComplex).map (fun s => s.setData
          (s.verts.foldl
            (fun acc v => acc + vertexValue [⟨[0], 5⟩] [(7 : ℚ)] v) 0))) := by
  refine ⟨by decide, ?_⟩
  exact (claim_C6 [⟨[0], 5⟩] [(7 : ℚ)] 0 (fun a b => a + b) 0 (by decide)
    (by intro x hx; simp at hx; rw [hx]; norm_num)).1

/-! ### Dimension-ordered traversal (claim C3) -/

theorem list_pairwise_of_mem {α : Type} {R : α → α → Prop} :
    ∀ {l : List α}, (∀ a ∈ l, ∀ b ∈ l, R a b) → l.Pairwise R := by
  intro l
  induction l with
  | nil => intro _; exact List.Pairwise.nil
  | cons a l ih =>
      intro h
      refine List.Pairwise.cons ?_ (ih ?_)
      · intro b hb
        exact h a (by simp) b (by simp [hb])
      · intro x hx y hy
        exact h x (by simp [hx]) y (by simp [hy])

theorem length_le_maxVertCount {K : SimplicialComplex} {s : Simplex}
    (h : s ∈ K) : s.verts.length ≤ maxVertCount K := by
  induction K with
  | nil => simp at h
  | cons u K ih =>
      rw [maxVertCount, List.map_cons, List.foldr_cons]
      rcases List.mem_cons.mp h with h | h
      · subst h
        exact le_max_left _ _
      · exact le_trans (ih h) (le_max_right _ _)

theorem flatMap_groups_aux {M : List Simplex} :
    ∀ {ds : List ℕ} {d : ℕ}, d ∉ ds →
      ∀ (s : Simplex), s.dimension = d →
      (ds.flatMap fun e => (s :: M).filter (fun x => x.dimension = e))
        = ds.flatMap fun e => M.filter (fun x => x.dimension = e) := by
  intro ds
  induction ds with
  | nil => intro d _ s _; rfl
  | cons e ds ih =>
      intro d hd s hs
      simp only [List.flatMap_cons]
      have he : e ≠ d := by intro he; exact hd (by simp [he])
      have hfe : (s :: M).filter (fun x => decide (x.dimension = e))
          = M.filter (fun x => decide (x.dimension = e)) := by
        rw [List.filter_cons]
        rw [if_neg (by simp [hs, he.symm])]
      rw [hfe, ih (by intro hmem; exact hd (by simp [hmem])) s hs]

theorem flatMap_groups_perm :
    ∀ (M : List Simplex) (ds : List ℕ), ds.Nodup →
      (∀ s ∈ M, s.dimension ∈ ds) →
      (ds.flatMap fun d => M.filter (fun x => x.dimension = d)).Perm M := by
  intro M
  induction M with
  | nil =>
      intro ds _ _
      have : (ds.flatMap fun d => ([] : List Simplex).filter
          (fun x => x.dimension = d)) = [] := by
        simp
      rw [this]
  | cons s M ih =>
      intro ds hnd hdim
      have hsd : s.dimension ∈ ds := hdim s (by simp)
      have key : ∀ (es : List ℕ), es.Nodup → s.dimension ∈ es →
          (es.flatMap fun d => (s :: M).filter (fun x => x.dimension = d)).Perm
            (s :: es.flatMap fun d => M.filter (fun x => x.dimension = d)) := by
        intro es
        induction es with
        | nil => intro _ h; simp at h
        | cons e es ihe =>
            intro hnde hmem
            simp only [List.flatMap_cons]
            by_cases hes : s.dimension = e
            · have hf : (s :: M).filter (fun x => decide (x.dimension = e))
                  = s :: M.filter (fun x => decide (x.dimension = e)) := by
                rw [List.filter_cons, if_pos (by simp [hes])]
              rw [hf]
              have hnotin : e ∉ es := (List.nodup_cons.mp hnde).1
              rw [flatMap_groups_aux (by rw [← hes] at hnotin; exact hnotin) s rfl]
              simp
            · have hf : (s :: M).filter (fun x => decide (x.dimension = e))
                  = M.filter (fun x => decide (x.dimension = e)) := by
                rw [List.filter_cons, if_neg (by simp [hes])]
              rw [hf]
              have hmem2 : s.dimension ∈ es := by
                rcases List.mem_cons.mp hmem with h | h
                · exact absurd h hes
                · exact h
              have hrec := ihe (List.nodup_cons.mp hnde).2 hmem2
              have hstep := List.Perm.append_left
                (M.filter (fun x => decide (x.dimension = e))) hrec
              exact hstep.trans List.perm_middle
      exact ((key ds hnd hsd).trans (List.Perm.cons s (ih ds hnd
        (fun u hu => hdim u (by simp [hu])))))

theorem byDim_perm {K : SimplicialComplex} (hne : ∀ s ∈ K, s.verts ≠ []) :
    (byDim K).Perm K := by
  apply flatMap_groups_perm
  · exact List.nodup_range _
  · intro s hs
    rw [List.mem_range]
    have h1 : 1 ≤ s.verts.length := by
      have := hne s hs
      cases hv : s.verts with
      | nil => exact absurd hv this
      | cons a l => simp [hv]
    have h2 := length_le_maxVertCount hs
    rw [Simplex.dimension]
    omega

theorem mem_flatMap_groups_dim {M : List Simplex} :
    ∀ {ds : List ℕ} {x : Simplex},
      x ∈ (ds.flatMap fun d => M.filter (fun t => t.dimension = d)) →
      ∃ d ∈ ds, x.dimension = d := by
  intro ds x hx
  obtain ⟨d, hd, hmem⟩ := List.mem_flatMap.mp hx
  refine ⟨d, hd, ?_⟩
  have := List.of_mem_filter hmem
  simpa using this

theorem byDim_dim_sorted (K : SimplicialComplex) :
    (byDim K).Pairwise (fun a b => a.dimension ≤ b.dimension) := by
  rw [byDim]
  have key : ∀ ds : List ℕ, ds.Pairwise (· ≤ ·) →
      (ds.flatMap fun d => K.filter (fun t => t.dimension = d)).Pairwise
        (fun a b => a.dimension ≤ b.dimension) := by
    intro ds
    induction ds with
    | nil => intro _; exact List.Pairwise.nil
    | cons d ds ih =>
        intro hp
        rw [List.pairwise_cons] at hp
        obtain ⟨hd, hp⟩ := hp
        rw [List.flatMap_cons, List.pairwise_append]
        refine ⟨?_, ih hp, ?_⟩
        · apply list_pairwise_of_mem
          intro a ha b hb
          have ha2 : a.dimension = d := by simpa using List.of_mem_filter ha
          have hb2 : b.dimension = d := by simpa using List.of_mem_filter hb
          omega
        · intro a ha b hb
          have ha2 : a.dimension = d := by simpa using List.of_mem_filter ha
          obtain ⟨e, he, hb2⟩ := mem_flatMap_groups_dim hb
          have := hd e he
          omega
  exact key (List.range (maxVertCount K)) (List.pairwise_le_range _)

/-- The body of the `assignMaximumWeight` loop: the simplex pushed for `s`
when the output built so far is `S`. -/
def amwStep (minDim : ℕ) (S : SimplicialComplex) (s : Simplex) : Simplex :=
  if minDim < s.dimension then
    s.setData ((List.range s.verts.length).foldl
      (fun w k =>
        match findByVerts S (s.verts.eraseIdx k) with
        | some t => max w t.data
        | none => w)
      s.data)
  else s

theorem assignMaximumWeight_eq (K : SimplicialComplex) (minDim : ℕ) :
    assignMaximumWeight K minDim
      = (byDim K).foldl (fun S s => S ++ [amwStep minDim S s]) [] := by
  rw [assignMaximumWeight]
  congr 1
  funext S s
  rw [amwStep]
  split <;> rfl

@[simp] theorem amwStep_verts (minDim : ℕ) (S : SimplicialComplex) (s : Simplex) :
    (amwStep minDim S s).verts = s.verts := by
  rw [amwStep]
  split <;> rfl

theorem amwFold_map_verts (minDim : ℕ) :
    ∀ (l : List Simplex) (S : SimplicialComplex),
      (l.foldl (fun S s => S ++ [amwStep minDim S s]) S).map Simplex.verts
        = S.map Simplex.verts ++ l.map Simplex.verts := by
  intro l
  induction l with
  | nil => intro S; simp
  | cons s l ih =>
      intro S
      rw [List.foldl_cons, ih]
      simp

theorem amwFold_prefix (minDim : ℕ) :
    ∀ (l : List Simplex) (S : SimplicialComplex),
      ∃ T, l.foldl (fun S s => S ++ [amwStep minDim S s]) S = S ++ T := by
  intro l
  induction l with
  | nil => intro S; exact ⟨[], by simp⟩
  | cons s l ih =>
      intro S
      obtain ⟨T, hT⟩ := ih (S ++ [amwStep minDim S s])
      exact ⟨[amwStep minDim S s] ++ T, by rw [List.foldl_cons, hT, List.append_assoc]⟩

theorem amwFold_mem_split (minDim : ℕ) :
    ∀ (l : List Simplex) (S : SimplicialComplex) (t : Simplex),
      t ∈ l.foldl (fun S s => S ++ [amwStep minDim S s]) S →
      t ∈ S ∨ ∃ l1 s l2, l = l1 ++ s :: l2 ∧
        t = amwStep minDim (l1.foldl (fun S s => S ++ [amwStep minDim S s]) S) s := by
  intro l
  induction l with
  | nil => intro S t ht; exact Or.inl ht
  | cons s l ih =>
      intro S t ht
      rw [List.foldl_cons] at ht
      rcases ih (S ++ [amwStep minDim S s]) t ht with h | h
      · rcases List.mem_append.mp h with h2 | h2
        · exact Or.inl h2
        · refine Or.inr ⟨[], s, l, by simp, ?_⟩
          simpa using h2
      · obtain ⟨l1, s1, l2, hl, he⟩ := h
        refine Or.inr ⟨s :: l1, s1, l2, by rw [hl, List.cons_append], ?_⟩
        rw [he, List.foldl_cons]

theorem wfold_ge {S : SimplicialComplex} {vs : List ℕ} :
    ∀ (ks : List ℕ) (w0 : ℚ),
      w0 ≤ ks.foldl
        (fun w k =>
          match findByVerts S (vs.eraseIdx k) with
          | some t => max w t.data
          | none => w) w0 ∧
      ∀ k ∈ ks, ∀ ft, findByVerts S (vs.eraseIdx k) = some ft →
        ft.data ≤ ks.foldl
          (fun w k =>
            match findByVerts S (vs.eraseIdx k) with
            | some t => max w t.data
            | none => w) w0 := by
  intro ks
  induction ks with
  | nil => intro w0; exact ⟨le_refl _, by simp⟩
  | cons k ks ih =>
      intro w0
      rw [List.foldl_cons]
      constructor
      · refine le_trans ?_ (ih _).1
        cases hf : findByVerts S (vs.eraseIdx k) with
        | none => simp
        | some ft => simp [le_max_left]
      · intro k2 hk2 ft hft
        rcases List.mem_cons.mp hk2 with h | h
        · rw [h] at hft
          refine le_trans ?_ (ih _).1
          rw [hft]
          exact le_max_right _ _
        · exact (ih _).2 k2 h ft hft

theorem wfold_attain {S : SimplicialComplex} {vs : List ℕ} :
    ∀ (ks : List ℕ) (w0 : ℚ),
      (ks.foldl
        (fun w k =>
          match findByVerts S (vs.eraseIdx k) with
          | some t => max w t.data
          | none => w) w0) = w0 ∨
      ∃ k ∈ ks, ∃ ft, findByVerts S (vs.eraseIdx k) = some ft ∧
        (ks.foldl
          (fun w k =>
            match findByVerts S (vs.eraseIdx k) with
            | some t => max w t.data
            | none => w) w0) = ft.data := by
  intro ks
  induction ks with
  | nil => intro w0; exact Or.inl rfl
  | cons k ks ih =>
      intro w0
      rw [List.foldl_cons]
      cases hf : findByVerts S (vs.eraseIdx k) with
      | none =>
          rcases ih w0 with h | h
          · exact Or.inl h
          · obtain ⟨k2, hk2, ft, hft, he⟩ := h
            exact Or.inr ⟨k2, by simp [hk2], ft, hft, he⟩
      | some ft =>
          rcases ih (max w0 ft.data) with h | h
          · rcases max_cases w0 ft.data with ⟨he, _⟩ | ⟨he, _⟩
            · exact Or.inl (h.trans he)
            · exact Or.inr ⟨k, by simp, ft, hf, h.trans he⟩
          · obtain ⟨k2, hk2, ft2, hft2, he⟩ := h
            exact Or.inr ⟨k2, by simp [hk2], ft2, hft2, he⟩

theorem findByVerts_eq_of_mem_nodup {S : SimplicialComplex} {f : Simplex}
    (hnd : (S.map Simplex.verts).Nodup) (hf : f ∈ S) :
    findByVerts S f.verts = some f := by
  cases h : findByVerts S f.verts with
  | none =>
      exfalso
      have := List.find?_eq_none.mp h f hf
      simp at this
  | some g =>
      have hg : g ∈ S := List.mem_of_find?_eq_some h
      have hgv : g.verts = f.verts := by simpa using List.find?_some h
      rw [List.inj_on_of_nodup_map hnd hg hf hgv]

theorem findByVerts_mem {S : SimplicialComplex} {vs : List ℕ} {t : Simplex}
    (h : findByVerts S vs = some t) : t ∈ S ∧ t.verts = vs := by
  refine ⟨List.mem_of_find?_eq_some h, ?_⟩
  simpa using List.find?_some h

theorem byDim_map_verts_nodup {K : SimplicialComplex}
    (hnd : (K.map Simplex.verts).Nodup) (hne : ∀ s ∈ K, s.verts ≠ []) :
    ((byDim K).map Simplex.verts).Nodup :=
  (((byDim_perm hne).map Simplex.verts).nodup_iff).mpr hnd

theorem amw_mem_decomp {K : SimplicialComplex} {minDim : ℕ} {s : Simplex}
    (hs : s ∈ assignMaximumWeight K minDim) :
    ∃ l1 s0 l2, byDim K = l1 ++ s0 :: l2 ∧
      s = amwStep minDim (l1.foldl (fun S t => S ++ [amwStep minDim S t]) []) s0 := by
  rw [assignMaximumWeight_eq] at hs
  rcases amwFold_mem_split minDim (byDim K) [] s hs with h | h
  · simp at h
  · exact h

theorem amwFold_mem_verts (minDim : ℕ) :
    ∀ (l : List Simplex) (S : SimplicialComplex) (t : Simplex),
      t ∈ l.foldl (fun S s => S ++ [amwStep minDim S s]) S →
      t ∈ S ∨ ∃ s2 ∈ l, t.verts = s2.verts := by
  intro l S t ht
  rcases amwFold_mem_split minDim l S t ht with h | h
  · exact Or.inl h
  · obtain ⟨l1, s, l2, hl, he⟩ := h
    refine Or.inr ⟨s, by rw [hl]; exact List.mem_append.mpr (Or.inr (by simp)), ?_⟩
    simp [he]

theorem amw_prefix_subset {K : SimplicialComplex} {minDim : ℕ}
    {l1 : List Simplex} {s0 : Simplex} {l2 : List Simplex}
    (hl : byDim K = l1 ++ s0 :: l2) :
    ∀ x, (x ∈ l1.foldl (fun S t => S ++ [amwStep minDim S t]) [] ∨
          x = amwStep minDim (l1.foldl (fun S t => S ++ [amwStep minDim S t]) []) s0) →
      x ∈ assignMaximumWeight K minDim := by
  intro x hx
  simp only [assignMaximumWeight_eq, hl, List.foldl_append, List.foldl_cons]
  obtain ⟨T, hT⟩ := amwFold_prefix minDim l2
    (l1.foldl (fun S t => S ++ [amwStep minDim S t]) []
      ++ [amwStep minDim (l1.foldl (fun S t => S ++ [amwStep minDim S t]) []) s0])
  rw [hT]
  rcases hx with h | h
  · exact List.mem_append.mpr (Or.inl (List.mem_append.mpr (Or.inl h)))
  · exact List.mem_append.mpr (Or.inl (List.mem_append.mpr (Or.inr (by simp [h]))))

theorem amw_face_in_prefix {K : SimplicialComplex} {minDim : ℕ}
    (hne : ∀ s ∈ K, s.verts ≠ [])
    {l1 : List Simplex} {s0 : Simplex} {l2 : List Simplex}
    (hl : byDim K = l1 ++ s0 :: l2)
    (hd0 : minDim < s0.dimension)
    {f : Simplex} (hf : f ∈ assignMaximumWeight K minDim)
    (hflen : f.verts.length = s0.verts.length - 1) :
    f ∈ l1.foldl (fun S t => S ++ [amwStep minDim S t]) [] := by
  have hs0K : s0 ∈ K := ((byDim_perm hne).mem_iff).mp
    (by rw [hl]; exact List.mem_append.mpr (Or.inr (by simp)))
  have hpos : 0 < s0.verts.length := List.length_pos.mpr (hne s0 hs0K)
  have hlen : 2 ≤ s0.verts.length := by
    rw [Simplex.dimension] at hd0; omega
  have hA : assignMaximumWeight K minDim
      = l2.foldl (fun S t => S ++ [amwStep minDim S t])
          (l1.foldl (fun S t => S ++ [amwStep minDim S t]) []
            ++ [amwStep minDim (l1.foldl (fun S t => S ++ [amwStep minDim S t]) []) s0]) := by
    simp only [assignMaximumWeight_eq, hl, List.foldl_append, List.foldl_cons]
  rw [hA] at hf
  rcases amwFold_mem_verts minDim l2 _ f hf with h | h
  · rcases List.mem_append.mp h with h2 | h2
    · exact h2
    · exfalso
      have hfe : f = amwStep minDim (l1.foldl (fun S t => S ++ [amwStep minDim S t]) []) s0 := by
        simpa using h2
      have hfv2 : f.verts = s0.verts := by simp [hfe]
      rw [hfv2] at hflen
      omega
  · exfalso
    obtain ⟨s2, hs2, hfe⟩ := h
    have hdle : s0.dimension ≤ s2.dimension := by
      have hp := byDim_dim_sorted K
      rw [hl] at hp
      exact (List.pairwise_cons.mp (List.pairwise_append.mp hp).2.1).1 s2 hs2
    have hs2K : s2 ∈ K := ((byDim_perm hne).mem_iff).mp
      (by rw [hl]; exact List.mem_append.mpr (Or.inr (by simp [hs2])))
    have hs2pos : 0 < s2.verts.length := List.length_pos.mpr (hne s2 hs2K)
    rw [Simplex.dimension, Simplex.dimension] at hdle
    have hfl2 : f.verts.length = s2.verts.length := by rw [hfe]
    omega

theorem amw_prefix_nodup {K : SimplicialComplex} {minDim : ℕ}
    (hnd : (K.map Simplex.verts).Nodup) (hne : ∀ s ∈ K, s.verts ≠ [])
    {l1 : List Simplex} {s0 : Simplex} {l2 : List Simplex}
    (hl : byDim K = l1 ++ s0 :: l2) :
    ((l1.foldl (fun S t => S ++ [amwStep minDim S t]) []).map Simplex.verts).Nodup := by
  have h1 : (l1.foldl (fun S t => S ++ [amwStep minDim S t]) []).map Simplex.verts
      = l1.map Simplex.verts := by
    rw [amwFold_map_verts]; simp
  rw [h1]
  have hbd := byDim_map_verts_nodup hnd hne
  rw [hl, List.map_append] at hbd
  exact hbd.of_append_left

/-- **C3** (amended).  For a complex `K` whose simplices have pairwise
distinct, non-empty vertex sets, `assignMaximumWeight K minDim` copies every
simplex of dimension at most `minDim` unchanged; a simplex `s` of dimension
above `minDim` gets a weight that is at least its input weight, dominates
the weight of every boundary face of `s` present in the output, and equals
either the input weight of `s` itself or the weight of one of its output
boundary faces — the source takes the maximum of the simplex's own weight
and the weights of the already-emitted faces, not of the faces alone, and
it leaves simplices of dimension at most `minDim` (not below it) alone, so
weight monotonicity holds only at the recomputed simplices. -/
theorem claim_C3 (K : SimplicialComplex) (minDim : ℕ)
    (hnd : (K.map Simplex.verts).Nodup)
    (hne : ∀ s ∈ K, s.verts ≠ []) :
    (∀ f ∈ assignMaximumWeight K minDim, f.dimension ≤ minDim → f ∈ K) ∧
    (∀ s ∈ assignMaximumWeight K minDim, minDim < s.dimension →
      ∀ f ∈ assignMaximumWeight K minDim,
        ∀ k, k < s.verts.length → f.verts = s.verts.eraseIdx k →
          f.data ≤ s.data) ∧
    (∀ s ∈ assignMaximumWeight K minDim, minDim < s.dimension →
      ∃ s0 ∈ K, s0.verts = s.verts ∧ s0.data ≤ s.data ∧
        (s.data = s0.data ∨ ∃ f ∈ assignMaximumWeight K minDim, ∃ k,
          k < s.verts.length ∧ f.verts = s.verts.eraseIdx k ∧
          s.data = f.data)) := by
  refine ⟨?_, ?_, ?_⟩
  · intro f hf hdim
    obtain ⟨l1, s0, l2, hl, he⟩ := amw_mem_decomp hf
    have hv : f.verts = s0.verts := by simp [he]
    have hd0 : s0.dimension ≤ minDim := by
      rw [Simplex.dimension] at hdim ⊢
      rw [hv] at hdim
      exact hdim
    have hfe : f = s0 := by
      rw [he, amwStep, if_neg (by omega)]
    rw [hfe]
    exact ((byDim_perm hne).mem_iff).mp
      (by rw [hl]; exact List.mem_append.mpr (Or.inr (by simp)))
  · intro s hs hdim f hf k hk hfv
    obtain ⟨l1, s0, l2, hl, he⟩ := amw_mem_decomp hs
    have hv : s.verts = s0.verts := by simp [he]
    have hd0 : minDim < s0.dimension := by
      rw [Simplex.dimension] at hdim ⊢
      rw [hv] at hdim
      exact hdim
    have hk0 : k < s0.verts.length := by rw [← hv]; exact hk
    have hflen : f.verts.length = s0.verts.length - 1 := by
      rw [hfv, hv, List.length_eraseIdx]
      simp [hk0]
    have hfmem := amw_face_in_prefix hne hl hd0 hf hflen
    have hndS1 := @amw_prefix_nodup K minDim hnd hne l1 s0 l2 hl
    have hfind := findByVerts_eq_of_mem_nodup hndS1 hfmem
    have hfv3 : f.verts = s0.verts.eraseIdx k := by rw [hfv, hv]
    have hdata : s.data = (List.range s0.verts.length).foldl
        (fun w k =>
          match findByVerts (l1.foldl (fun S t => S ++ [amwStep minDim S t]) [])
              (s0.verts.eraseIdx k) with
          | some t => max w t.data
          | none => w) s0.data := by
      rw [he, amwStep, if_pos hd0]
      rfl
    rw [hdata]
    exact (wfold_ge (List.range s0.verts.length) s0.data).2
      k (List.mem_range.mpr hk0) f (by rw [← hfv3]; exact hfind)
  · intro s hs hdim
    obtain ⟨l1, s0, l2, hl, he⟩ := amw_mem_decomp hs
    have hv : s.verts = s0.verts := by simp [he]
    have hd0 : minDim < s0.dimension := by
      rw [Simplex.dimension] at hdim ⊢
      rw [hv] at hdim
      exact hdim
    have hs0K : s0 ∈ K := ((byDim_perm hne).mem_iff).mp
      (by rw [hl]; exact List.mem_append.mpr (Or.inr (by simp)))
    have hdata : s.data = (List.range s0.verts.length).foldl
        (fun w k =>
          match findByVerts (l1.foldl (fun S t => S ++ [amwStep minDim S t]) [])
              (s0.verts.eraseIdx k) with
          | some t => max w t.data
          | none => w) s0.data := by
      rw [he, amwStep, if_pos hd0]
      rfl
    refine ⟨s0, hs0K, hv.symm, ?_, ?_⟩
    · rw [hdata]
      exact (wfold_ge (List.range s0.verts.length) s0.data).1
    · rcases @wfold_attain (l1.foldl (fun S t => S ++ [amwStep minDim S t]) [])
        s0.verts (List.range s0.verts.length) s0.data with h | h
      · left
        rw [hdata, h]
      · right
        obtain ⟨k, hk, ft, hft, hwe⟩ := h
        obtain ⟨hftS1, hftv⟩ := findByVerts_mem hft
        refine ⟨ft, amw_prefix_subset hl ft (Or.inl hftS1), k, ?_, ?_, ?_⟩
        · rw [hv]
          exact List.mem_range.mp hk
        · rw [hftv, hv]
        · rw [hdata, hwe]

/-- **C3, counterexample to the original claim.**  On the complex
`{0} ↦ 10, {1} ↦ 0, {0,1} ↦ 1` with `minDimension = 1` (the source's
default), `assignMaximumWeight` copies every simplex unchanged, so the
output contains the edge `{0,1}` with weight `1` together with its
boundary face `{0}` of weight `10 > 1`: weight monotonicity
`weight(f) ≤ weight(s)` fails. -/
theorem claim_C3_counterexample :
    ∃ s ∈ assignMaximumWeight [⟨[0], 10⟩, ⟨[1], 0⟩, ⟨[0, 1], 1⟩] 1,
      ∃ f ∈ assignMaximumWeight [⟨[0], 10⟩, ⟨[1], 0⟩, ⟨[0, 1], 1⟩] 1,
        (∃ k, k < s.verts.length ∧ f.verts = s.verts.eraseIdx k) ∧
        ¬ f.data ≤ s.data := by
  have hE : assignMaximumWeight [⟨[0], 10⟩, ⟨[1], 0⟩, ⟨[0, 1], 1⟩] 1
      = [⟨[0], 10⟩, ⟨[1], 0⟩, ⟨[0, 1], 1⟩] := by rfl
  rw [hE]
  refine ⟨⟨[0, 1], 1⟩, by simp, ⟨[0], 10⟩, by simp, ⟨1, by norm_num, by norm_num⟩, by norm_num⟩

/-- Witness for **C3**: the amended statement instantiated on the concrete
complex `{0} ↦ 0, {1} ↦ 0, {0,1} ↦ 5` with `minDimension = 1`, whose
simplices have pairwise distinct non-empty vertex sets. -/
theorem claim_C3_witness :
    ((([⟨[0], 0⟩, ⟨[1], 0⟩, ⟨[0, 1], 5⟩] : SimplicialComplex).map Simplex.verts).Nodup ∧
      (∀ s ∈ ([⟨[0], 0⟩, ⟨[1], 0⟩, ⟨[0, 1], 5⟩] : SimplicialComplex), s.verts ≠ [])) ∧
    ((∀ f ∈ assignMaximumWeight [⟨[0], 0⟩, ⟨[1], 0⟩, ⟨[0, 1], 5⟩] 1,
        f.dimension ≤ 1 → f ∈ ([⟨[0], 0⟩, ⟨[1], 0⟩, ⟨[0, 1], 5⟩] : SimplicialComplex)) ∧
      (∀ s ∈ assignMaximumWeight [⟨[0], 0⟩, ⟨[1], 0⟩, ⟨[0, 1], 5⟩] 1, 1 < s.dimension →
        ∀ f ∈ assignMaximumWeight [⟨[0], 0⟩, ⟨[1], 0⟩, ⟨[0, 1], 5⟩] 1,
          ∀ k, k < s.verts.length → f.verts = s.verts.eraseIdx k →
            f.data ≤ s.data) ∧
      (∀ s ∈ assignMaximumWeight [⟨[0], 0⟩, ⟨[1], 0⟩, ⟨[0, 1], 5⟩] 1, 1 < s.dimension →
        ∃ s0 ∈ ([⟨[0], 0⟩, ⟨[1], 0⟩, ⟨[0, 1], 5⟩] : SimplicialComplex),
          s0.verts = s.verts ∧ s0.data ≤ s.data ∧
          (s.data = s0.data ∨
            ∃ f ∈ assignMaximumWeight [⟨[0], 0⟩, ⟨[1], 0⟩, ⟨[0, 1], 5⟩] 1, ∃ k,
              k < s.verts.length ∧ f.verts = s.verts.eraseIdx k ∧
              s.data = f.data))) :=
  ⟨⟨by decide, by decide⟩, claim_C3 _ 1 (by decide) (by decide)⟩

/-! ### Rips completeness (claim C2): the lower-neighbour map -/

/-- One step of the `getLowerNeighbours` fold (the body of its edge loop). -/
def lnStep (m : ℕ → List ℕ) (e : Simplex) : ℕ → List ℕ :=
  match e.verts with
  | u :: v :: _ => if u < v then lnInsert m v u else lnInsert m u v
  | _ => m

theorem getLowerNeighbours_eq (K : SimplicialComplex) :
    getLowerNeighbours K
      = (K.filter (fun s => s.dimension == 1)).foldl lnStep (fun _ => []) := rfl

theorem mem_lnInsert {m : ℕ → List ℕ} {v u x w : ℕ} :
    x ∈ lnInsert m v u w ↔ (w = v ∧ x = u) ∨ x ∈ m w := by
  rw [lnInsert]
  by_cases h : w = v
  · rw [if_pos h, mem_sortedInsert]
    subst h
    tauto
  · rw [if_neg h]
    tauto

theorem lnInsert_sorted {m : ℕ → List ℕ} {v u : ℕ}
    (hm : ∀ w, (m w).Sorted (· < ·)) :
    ∀ w, (lnInsert m v u w).Sorted (· < ·) := by
  intro w
  rw [lnInsert]
  by_cases h : w = v
  · rw [if_pos h]
    exact sortedInsert_sorted u (m w) (hm w)
  · rw [if_neg h]
    exact hm w

theorem lnFold_props {E : List Simplex}
    (hE : ∀ e ∈ E, ∃ u v, u < v ∧ e.verts = [u, v]) :
    ∀ (m : ℕ → List ℕ), (∀ w, (m w).Sorted (· < ·)) →
      ∀ w, ((E.foldl lnStep m) w).Sorted (· < ·) ∧
        ∀ x, (x ∈ (E.foldl lnStep m) w ↔ x ∈ m w ∨ ∃ e ∈ E, e.verts = [x, w]) := by
  induction E with
  | nil =>
      intro m hm w
      exact ⟨hm w, by simp⟩
  | cons e E ih =>
      intro m hm w
      obtain ⟨u, v, huv, hev⟩ := hE e (by simp)
      have hstep : lnStep m e = lnInsert m v u := by
        rw [lnStep, hev]
        show (if u < v then lnInsert m v u else lnInsert m u v) = lnInsert m v u
        rw [if_pos huv]
      rw [List.foldl_cons, hstep]
      have hm' : ∀ w, (lnInsert m v u w).Sorted (· < ·) := lnInsert_sorted hm
      obtain ⟨h1, h2⟩ := ih (fun e2 he2 => hE e2 (by simp [he2])) (lnInsert m v u) hm' w
      refine ⟨h1, ?_⟩
      intro x
      rw [h2 x, mem_lnInsert]
      constructor
      · rintro ((⟨hw, hx⟩ | hx) | ⟨e2, he2, hev2⟩)
        · exact Or.inr ⟨e, by simp, by rw [hev, hx, hw]⟩
        · exact Or.inl hx
        · exact Or.inr ⟨e2, by simp [he2], hev2⟩
      · rintro (hx | ⟨e2, he2, hev2⟩)
        · exact Or.inl (Or.inr hx)
        · rcases List.mem_cons.mp he2 with he3 | he3
          · rw [he3] at hev2
            rw [hev] at hev2
            injection hev2 with ha hb
            injection hb with hb _
            exact Or.inl (Or.inl ⟨hb.symm, ha.symm⟩)
          · exact Or.inr ⟨e2, he3, hev2⟩

theorem edges_shape {K : SimplicialComplex}
    (hsk : ∀ s ∈ K, s.verts.Sorted (· < ·) ∧
      (s.verts.length = 1 ∨ s.verts.length = 2)) :
    ∀ e ∈ K.filter (fun s => s.dimension == 1), ∃ u v, u < v ∧ e.verts = [u, v] := by
  intro e he
  have heK : e ∈ K := List.mem_of_mem_filter he
  have hdim : e.dimension = 1 := by
    have := List.of_mem_filter he
    simpa using this
  obtain ⟨hsort, hlen⟩ := hsk e heK
  rw [Simplex.dimension] at hdim
  have hlen2 : e.verts.length = 2 := by omega
  obtain ⟨u, v2, hev⟩ := List.length_eq_two.mp hlen2
  refine ⟨u, v2, ?_, hev⟩
  rw [hev] at hsort
  exact (List.pairwise_cons.mp hsort).1 v2 (by simp)

theorem getLowerNeighbours_sorted {K : SimplicialComplex}
    (hsk : ∀ s ∈ K, s.verts.Sorted (· < ·) ∧
      (s.verts.length = 1 ∨ s.verts.length = 2)) :
    ∀ v, (getLowerNeighbours K v).Sorted (· < ·) := by
  intro v
  rw [getLowerNeighbours_eq]
  exact (lnFold_props (edges_shape hsk) (fun _ => []) (by simp) v).1

theorem mem_getLowerNeighbours {K : SimplicialComplex}
    (hsk : ∀ s ∈ K, s.verts.Sorted (· < ·) ∧
      (s.verts.length = 1 ∨ s.verts.length = 2)) {u v : ℕ} :
    u ∈ getLowerNeighbours K v ↔ ∃ e ∈ K, e.verts = [u, v] := by
  rw [getLowerNeighbours_eq]
  rw [(lnFold_props (edges_shape hsk) (fun _ => []) (by simp) v).2 u]
  simp only [List.not_mem_nil, false_or]
  constructor
  · rintro ⟨e, he, hev⟩
    exact ⟨e, List.mem_of_mem_filter he, hev⟩
  · rintro ⟨e, he, hev⟩
    refine ⟨e, List.mem_filter.mpr ⟨he, ?_⟩, hev⟩
    simp [Simplex.dimension, hev]

theorem getLowerNeighbours_lt {K : SimplicialComplex}
    (hsk : ∀ s ∈ K, s.verts.Sorted (· < ·) ∧
      (s.verts.length = 1 ∨ s.verts.length = 2)) :
    ∀ v, ∀ u ∈ getLowerNeighbours K v, u < v := by
  intro v u hu
  obtain ⟨e, heK, hev⟩ := (mem_getLowerNeighbours hsk).mp hu
  have := (hsk e heK).1
  rw [hev] at this
  exact (List.pairwise_cons.mp this).1 v (by simp)

theorem mem_intersect {U V : List ℕ} {x : ℕ} :
    x ∈ intersect U V ↔ x ∈ U ∧ x ∈ V := by
  rw [intersect]
  split
  · rw [List.mem_filter]
    simp only [decide_eq_true_eq]
    tauto
  · rw [List.mem_filter]
    simp only [decide_eq_true_eq]

theorem intersect_sorted {U V : List ℕ} (hU : U.Sorted (· < ·))
    (hV : V.Sorted (· < ·)) : (intersect U V).Sorted (· < ·) := by
  rw [intersect]
  split
  · exact hV.filter _
  · exact hU.filter _

/-- The invariant of the neighbour lists passed along by `addCofaces`:
every element of `t` is a common lower neighbour (member of `nbrs`), and
every later element of `t` is a lower neighbour of every earlier one. -/
def chainIn (ln : ℕ → List ℕ) (nbrs t : List ℕ) : Prop :=
  (∀ n ∈ t, n ∈ nbrs) ∧ t.Pairwise (fun a b => b ∈ ln a)

theorem chainIn_nil {ln : ℕ → List ℕ} {nbrs : List ℕ} : chainIn ln nbrs [] :=
  ⟨by simp, List.Pairwise.nil⟩

theorem chainIn_cons {ln : ℕ → List ℕ} {nbrs : List ℕ} {n : ℕ} {t : List ℕ} :
    chainIn ln nbrs (n :: t) ↔ n ∈ nbrs ∧ chainIn ln (intersect (ln n) nbrs) t := by
  constructor
  · rintro ⟨h1, h2⟩
    obtain ⟨hh, hp⟩ := List.pairwise_cons.mp h2
    refine ⟨h1 n (by simp), ?_, hp⟩
    intro m hm
    exact mem_intersect.mpr ⟨hh m hm, h1 m (by simp [hm])⟩
  · rintro ⟨hn, h1, h2⟩
    refine ⟨?_, List.pairwise_cons.mpr ⟨?_, h2⟩⟩
    · intro m hm
      rcases List.mem_cons.mp hm with h | h
      · rw [h]; exact hn
      · exact (mem_intersect.mp (h1 m h)).2
    · intro m hm
      exact (mem_intersect.mp (h1 m hm)).1

theorem chainIn_mono {ln : ℕ → List ℕ} {nbrs t : List ℕ}
    (h : chainIn ln nbrs t) : ∀ n ∈ t, n ∈ nbrs := h.1

theorem chainIn_sorted_gt {ln : ℕ → List ℕ}
    (hlt : ∀ v, ∀ u ∈ ln v, u < v) {nbrs t : List ℕ}
    (h : chainIn ln nbrs t) : t.Pairwise (· > ·) :=
  h.2.imp (fun hab => hlt _ _ hab)

theorem chain_block_sorted_gt {ln : ℕ → List ℕ}
    (hlt : ∀ v, ∀ u ∈ ln v, u < v) {s nbrs : List ℕ}
    (hs : s.Pairwise (· > ·))
    (hnb : ∀ n ∈ nbrs, ∀ x ∈ s, n ∈ ln x) {t : List ℕ}
    (hc : chainIn ln nbrs t) : (s ++ t).Pairwise (· > ·) := by
  rw [List.pairwise_append]
  refine ⟨hs, chainIn_sorted_gt hlt hc, ?_⟩
  intro x hx n hn
  exact hlt x n (hnb n (hc.1 n hn) x hx)

theorem sortList_of_sorted_gt {r : List ℕ} (h : r.Pairwise (· > ·)) :
    sortList r = r.reverse := by
  apply sorted_eq_of_mem_iff (sortList_sorted r)
  · exact List.pairwise_reverse.mpr h
  · intro x
    rw [mem_sortList, List.mem_reverse]

theorem pairwise_two_sided {α : Type} {R : α → α → Prop} :
    ∀ {t : List α}, t.Pairwise R →
      ∀ a ∈ t, ∀ b ∈ t, a = b ∨ R a b ∨ R b a := by
  intro t
  induction t with
  | nil => intro _ a ha; simp at ha
  | cons x t ih =>
      intro hp a ha b hb
      obtain ⟨hx, hp2⟩ := List.pairwise_cons.mp hp
      rcases List.mem_cons.mp ha with h1 | h1
      · rcases List.mem_cons.mp hb with h2 | h2
        · exact Or.inl (by rw [h1, h2])
        · exact Or.inr (Or.inl (by rw [h1]; exact hx b h2))
      · rcases List.mem_cons.mp hb with h2 | h2
        · exact Or.inr (Or.inr (by rw [h2]; exact hx a h1))
        · exact ih hp2 a h1 b h2

theorem nodup_flatMap_blocks {α β : Type} {l : List α} {f : α → List β}
    (hnd : ∀ a ∈ l, (f a).Nodup)
    (hdisj : l.Pairwise (fun a b => ∀ x ∈ f a, x ∉ f b)) :
    (l.flatMap f).Nodup := by
  induction l with
  | nil => simp
  | cons a l ih =>
      rw [List.flatMap_cons, List.nodup_append]
      obtain ⟨hda, hp⟩ := List.pairwise_cons.mp hdisj
      refine ⟨hnd a (by simp), ih (fun b hb => hnd b (by simp [hb])) hp, ?_⟩
      intro x hx hx2
      obtain ⟨b, hb, hxb⟩ := List.mem_flatMap.mp hx2
      exact hda b hb x hx hxb

theorem mkSimplex_verts (l : List ℕ) : (mkSimplex l).verts = sortList l := rfl

theorem chain_sortList_inj {ln : ℕ → List ℕ}
    (hlt : ∀ v, ∀ u ∈ ln v, u < v) {s nbrs : List ℕ}
    (hs : s.Pairwise (· > ·))
    (hnb : ∀ n ∈ nbrs, ∀ x ∈ s, n ∈ ln x)
    {n n2 : ℕ} (hn : n ∈ nbrs) (hn2 : n2 ∈ nbrs)
    {t t2 : List ℕ}
    (hc : chainIn ln (intersect (ln n) nbrs) t)
    (hc2 : chainIn ln (intersect (ln n2) nbrs) t2)
    (heq : sortList (s ++ n :: t) = sortList (s ++ n2 :: t2)) :
    n = n2 ∧ t = t2 := by
  have h1 : (s ++ n :: t).Pairwise (· > ·) :=
    chain_block_sorted_gt hlt hs hnb (chainIn_cons.mpr ⟨hn, hc⟩)
  have h2 : (s ++ n2 :: t2).Pairwise (· > ·) :=
    chain_block_sorted_gt hlt hs hnb (chainIn_cons.mpr ⟨hn2, hc2⟩)
  rw [sortList_of_sorted_gt h1, sortList_of_sorted_gt h2, List.reverse_inj] at heq
  have h3 := List.append_cancel_left heq
  injection h3 with ha hb
  exact ⟨ha, hb⟩

theorem addCofaces_chars (ln : ℕ → List ℕ) (dim : ℕ)
    (hlt : ∀ v, ∀ u ∈ ln v, u < v)
    (hls : ∀ v, (ln v).Pairwise (· < ·)) :
    ∀ s nbrs, s ≠ [] → s.Pairwise (· > ·) →
      (∀ n ∈ nbrs, ∀ x ∈ s, n ∈ ln x) → nbrs.Pairwise (· < ·) →
      (((addCofaces ln dim s nbrs).map Simplex.verts).Nodup ∧
       ∀ l, l ∈ (addCofaces ln dim s nbrs).map Simplex.verts ↔
         ∃ t, t ≠ [] ∧ chainIn ln nbrs t ∧ s.length + t.length ≤ dim + 1 ∧
           l = sortList (s ++ t)) := by
  apply addCofaces.induct ln dim
    (fun s nbrs => s ≠ [] → s.Pairwise (· > ·) →
      (∀ n ∈ nbrs, ∀ x ∈ s, n ∈ ln x) → nbrs.Pairwise (· < ·) →
      (((addCofaces ln dim s nbrs).map Simplex.verts).Nodup ∧
       ∀ l, l ∈ (addCofaces ln dim s nbrs).map Simplex.verts ↔
         ∃ t, t ≠ [] ∧ chainIn ln nbrs t ∧ s.length + t.length ≤ dim + 1 ∧
           l = sortList (s ++ t)))
    (fun s nbrs h rem => s ≠ [] → s.Pairwise (· > ·) →
      (∀ n ∈ nbrs, ∀ x ∈ s, n ∈ ln x) → nbrs.Pairwise (· < ·) →
      rem.Pairwise (· < ·) → (∀ n ∈ rem, n ∈ nbrs) →
      (((addCofacesGo ln dim s nbrs h rem).map Simplex.verts).Nodup ∧
       ∀ l, l ∈ (addCofacesGo ln dim s nbrs h rem).map Simplex.verts ↔
         ∃ n ∈ rem, ∃ t, chainIn ln (intersect (ln n) nbrs) t ∧
           s.length + t.length + 1 ≤ dim + 1 ∧ l = sortList (s ++ n :: t)))
  · intro s nbrs hguard hne hdec hnb hns
    rw [addCofaces, dif_pos hguard]
    refine ⟨by simp, ?_⟩
    intro l
    simp only [List.map_nil, List.not_mem_nil, false_iff]
    rintro ⟨t, htne, _, hbound, _⟩
    have hs1 : 1 ≤ s.length := List.length_pos.mpr hne
    have ht1 : 1 ≤ t.length := List.length_pos.mpr htne
    omega
  · intro s nbrs hguard ih hne hdec hnb hns
    rw [addCofaces, dif_neg hguard]
    obtain ⟨hnd, hiff⟩ := ih hne hdec hnb hns hns (fun n hn => hn)
    refine ⟨hnd, ?_⟩
    intro l
    rw [hiff l]
    constructor
    · rintro ⟨n, hn, t, hct, hbound, hl⟩
      refine ⟨n :: t, by simp, chainIn_cons.mpr ⟨hn, hct⟩, ?_, hl⟩
      rw [List.length_cons]
      omega
    · rintro ⟨t, htne, hct, hbound, hl⟩
      cases t with
      | nil => exact absurd rfl htne
      | cons n t' =>
          obtain ⟨hn, hct'⟩ := chainIn_cons.mp hct
          refine ⟨n, hn, t', hct', ?_, hl⟩
          rw [List.length_cons] at hbound
          omega
  · intro s nbrs h hne hdec hnb hns hrs hrsub
    rw [addCofacesGo]
    refine ⟨by simp, ?_⟩
    intro l
    simp
  · intro s nbrs h y ys ih1 ih2 hne hdec hnb hns hrs hrsub
    have hyn : y ∈ nbrs := hrsub y (by simp)
    have hyy : y ∉ ys := fun hmem =>
      lt_irrefl y ((List.pairwise_cons.mp hrs).1 y hmem)
    have hylt : ∀ x ∈ s, y ∈ ln x := hnb y hyn
    have hne' : s ++ [y] ≠ [] := by simp
    have hdec' : (s ++ [y]).Pairwise (· > ·) := by
      rw [List.pairwise_append]
      refine ⟨hdec, by simp, ?_⟩
      intro x hx b hb
      rw [List.mem_singleton] at hb
      rw [hb]
      exact hlt x y (hylt x hx)
    have hnb' : ∀ n ∈ intersect (ln y) nbrs, ∀ x ∈ s ++ [y], n ∈ ln x := by
      intro n hn x hx
      obtain ⟨h1, h2⟩ := mem_intersect.mp hn
      rcases List.mem_append.mp hx with hx2 | hx2
      · exact hnb n h2 x hx2
      · rw [List.mem_singleton] at hx2
        rw [hx2]
        exact h1
    have hns' : (intersect (ln y) nbrs).Pairwise (· < ·) := intersect_sorted (hls y) hns
    have hIH1 := ih1 hne' hdec' hnb' hns'
    have hIH2 := ih2 hne hdec hnb hns (List.pairwise_cons.mp hrs).2
      (fun n hn => hrsub n (by simp [hn]))
    have hinner : ∀ l,
        l ∈ ((if (ln y).isEmpty then [] else
              addCofaces ln dim (s ++ [y]) (intersect (ln y) nbrs)).map Simplex.verts) ↔
          ∃ t, t ≠ [] ∧ chainIn ln (intersect (ln y) nbrs) t ∧
            s.length + t.length + 1 ≤ dim + 1 ∧ l = sortList (s ++ y :: t) := by
      intro l
      by_cases hy : (ln y).isEmpty
      · rw [if_pos hy]
        simp only [List.map_nil, List.not_mem_nil, false_iff]
        rintro ⟨t, htne, hct, _, _⟩
        have hlny : ln y = [] := List.isEmpty_iff.mp hy
        cases t with
        | nil => exact absurd rfl htne
        | cons m t' =>
            have hm := (mem_intersect.mp (hct.1 m (by simp))).1
            rw [hlny] at hm
            simp at hm
      · rw [if_neg hy]
        rw [hIH1.2 l]
        constructor
        · rintro ⟨t, htne, hct, hbound, hl⟩
          refine ⟨t, htne, hct, ?_, ?_⟩
          · rw [List.length_append, List.length_singleton] at hbound
            omega
          · rw [hl, List.append_assoc, List.singleton_append]
        · rintro ⟨t, htne, hct, hbound, hl⟩
          refine ⟨t, htne, hct, ?_, ?_⟩
          · rw [List.length_append, List.length_singleton]
            omega
          · rw [hl, List.append_assoc, List.singleton_append]
    rw [addCofacesGo]
    simp only [List.map_cons, List.map_append, mkSimplex_verts]
    constructor
    · rw [List.nodup_cons]
      refine ⟨?_, ?_⟩
      · intro hmem
        rcases List.mem_append.mp hmem with hmem2 | hmem2
        · obtain ⟨t, htne, hct, hbound, hl⟩ := (hinner _).mp hmem2
          exact htne (chain_sortList_inj hlt hdec hnb hyn hyn chainIn_nil hct hl).2.symm
        · obtain ⟨n, hnys, t, hct, hbound, hl⟩ := (hIH2.2 _).mp hmem2
          have hinj := chain_sortList_inj hlt hdec hnb hyn (hrsub n (by simp [hnys]))
            chainIn_nil hct hl
          exact hyy (by rw [hinj.1]; exact hnys)
      · rw [List.nodup_append]
        refine ⟨?_, hIH2.1, ?_⟩
        · by_cases hy : (ln y).isEmpty
          · rw [if_pos hy]
            simp
          · rw [if_neg hy]
            exact hIH1.1
        · intro l hl1 hl2
          obtain ⟨t, htne, hct, hbound, hle⟩ := (hinner l).mp hl1
          obtain ⟨n, hnys, t2, hct2, hbound2, hle2⟩ := (hIH2.2 l).mp hl2
          have hinj := chain_sortList_inj hlt hdec hnb hyn (hrsub n (by simp [hnys]))
            hct hct2 (by rw [← hle, ← hle2])
          exact hyy (by rw [hinj.1]; exact hnys)
    · intro l
      simp only [List.mem_cons, List.mem_append]
      rw [hinner l, hIH2.2 l]
      constructor
      · rintro (h1 | h2 | h3)
        · exact ⟨y, by simp, [], chainIn_nil, by simp; omega, h1⟩
        · obtain ⟨t, htne, hct, hbound, hl⟩ := h2
          exact ⟨y, by simp, t, hct, hbound, hl⟩
        · obtain ⟨n, hnys, t, hct, hbound, hl⟩ := h3
          exact ⟨n, by simp [hnys], t, hct, hbound, hl⟩
      · rintro ⟨n, hnmem, t, hct, hbound, hl⟩
        rcases hnmem with hny | hnys
        · subst hny
          cases t with
          | nil => exact Or.inl hl
          | cons m t' => exact Or.inr (Or.inl ⟨m :: t', by simp, hct, hbound, hl⟩)
        · exact Or.inr (Or.inr ⟨n, hnys, t, hct, hbound, hl⟩)

theorem ripsExpansion_map_verts (K : SimplicialComplex) (D : ℕ) :
    (ripsExpansion K D).map Simplex.verts
      = ((vertsOf K).flatMap (fun v =>
          mkSimplex [v] ::
            (if (getLowerNeighbours K v).isEmpty then []
             else addCofaces (getLowerNeighbours K) D [v]
               (getLowerNeighbours K v)))).map Simplex.verts := by
  simp only [ripsExpansion]
  rw [List.map_map]
  refine List.map_congr_left ?_
  intro s _
  simp only [Function.comp_apply]
  by_cases h : s.dimension ≤ 1
  · rw [if_pos h]
    cases findByVerts K s.verts <;> rfl
  · rw [if_neg h]

theorem rips_block_iff {K : SimplicialComplex} (D : ℕ)
    (hsk : ∀ s ∈ K, s.verts.Sorted (· < ·) ∧
      (s.verts.length = 1 ∨ s.verts.length = 2)) (v : ℕ) :
    ∀ l, l ∈ ((mkSimplex [v] ::
        (if (getLowerNeighbours K v).isEmpty then []
         else addCofaces (getLowerNeighbours K) D [v]
           (getLowerNeighbours K v))).map Simplex.verts) ↔
      ∃ t, chainIn (getLowerNeighbours K) (getLowerNeighbours K v) t ∧
        t.length + 1 ≤ D + 1 ∧ l = sortList (v :: t) := by
  have hlt := getLowerNeighbours_lt hsk
  have hls := getLowerNeighbours_sorted hsk
  have hchars := addCofaces_chars (getLowerNeighbours K) D hlt hls [v]
    (getLowerNeighbours K v) (by simp) (by simp)
    (by intro n hn x hx; rw [List.mem_singleton] at hx; rw [hx]; exact hn)
    (hls v)
  intro l
  simp only [List.map_cons, mkSimplex_verts, sortList_singleton, List.mem_cons]
  constructor
  · rintro (h1 | h2)
    · refine ⟨[], chainIn_nil, by simp, ?_⟩
      rw [sortList_singleton]
      exact h1
    · by_cases hy : (getLowerNeighbours K v).isEmpty
      · rw [if_pos hy] at h2
        simp at h2
      · rw [if_neg hy] at h2
        obtain ⟨t, htne, hct, hbound, hl⟩ := hchars.2 l |>.mp h2
        refine ⟨t, hct, ?_, ?_⟩
        · rw [List.length_singleton] at hbound
          omega
        · rw [hl, List.singleton_append]
  · rintro ⟨t, hct, hbound, hl⟩
    cases t with
    | nil =>
        left
        rw [hl, sortList_singleton]
    | cons m t' =>
        right
        have hm : m ∈ getLowerNeighbours K v := hct.1 m (by simp)
        have hy : ¬ (getLowerNeighbours K v).isEmpty := by
          rw [List.isEmpty_iff]
          exact List.ne_nil_of_mem hm
        rw [if_neg hy]
        refine hchars.2 l |>.mpr ⟨m :: t', by simp, hct, ?_, ?_⟩
        · rw [List.length_singleton]
          rw [List.length_cons] at hbound ⊢
          omega
        · rw [hl, List.singleton_append]

theorem rips_block_nodup {K : SimplicialComplex} (D : ℕ)
    (hsk : ∀ s ∈ K, s.verts.Sorted (· < ·) ∧
      (s.verts.length = 1 ∨ s.verts.length = 2)) (v : ℕ) :
    ((mkSimplex [v] ::
        (if (getLowerNeighbours K v).isEmpty then []
         else addCofaces (getLowerNeighbours K) D [v]
           (getLowerNeighbours K v))).map Simplex.verts).Nodup := by
  have hlt := getLowerNeighbours_lt hsk
  have hls := getLowerNeighbours_sorted hsk
  have hchars := addCofaces_chars (getLowerNeighbours K) D hlt hls [v]
    (getLowerNeighbours K v) (by simp) (by simp)
    (by intro n hn x hx; rw [List.mem_singleton] at hx; rw [hx]; exact hn)
    (hls v)
  simp only [List.map_cons, mkSimplex_verts, sortList_singleton]
  rw [List.nodup_cons]
  constructor
  · intro hmem
    by_cases hy : (getLowerNeighbours K v).isEmpty
    · rw [if_pos hy] at hmem
      simp at hmem
    · rw [if_neg hy] at hmem
      obtain ⟨t, htne, hct, hbound, hl⟩ := hchars.2 [v] |>.mp hmem
      have hsg : ([v] ++ t).Pairwise (· > ·) :=
        chain_block_sorted_gt hlt (by simp)
          (by intro n hn x hx; rw [List.mem_singleton] at hx; rw [hx]; exact hn) hct
      have hrev := hl
      rw [sortList_of_sorted_gt hsg] at hrev
      have hlen := congrArg List.length hrev
      simp at hlen
      exact htne hlen
  · by_cases hy : (getLowerNeighbours K v).isEmpty
    · rw [if_pos hy]
      simp
    · rw [if_neg hy]
      exact hchars.1

theorem rips_block_max {K : SimplicialComplex} (D : ℕ)
    (hsk : ∀ s ∈ K, s.verts.Sorted (· < ·) ∧
      (s.verts.length = 1 ∨ s.verts.length = 2)) (v : ℕ) :
    ∀ l ∈ ((mkSimplex [v] ::
        (if (getLowerNeighbours K v).isEmpty then []
         else addCofaces (getLowerNeighbours K) D [v]
           (getLowerNeighbours K v))).map Simplex.verts),
      v ∈ l ∧ ∀ x ∈ l, x ≤ v := by
  intro l hl
  obtain ⟨t, hct, hbound, hle⟩ := (rips_block_iff D hsk v l).mp hl
  constructor
  · rw [hle, mem_sortList]
    simp
  · intro x hx
    rw [hle, mem_sortList] at hx
    rcases List.mem_cons.mp hx with h | h
    · omega
    · exact le_of_lt (getLowerNeighbours_lt hsk v x (hct.1 x h))

theorem rips_enum_nodup {K : SimplicialComplex} (D : ℕ)
    (hsk : ∀ s ∈ K, s.verts.Sorted (· < ·) ∧
      (s.verts.length = 1 ∨ s.verts.length = 2)) :
    (((vertsOf K).flatMap (fun v =>
        mkSimplex [v] ::
          (if (getLowerNeighbours K v).isEmpty then []
           else addCofaces (getLowerNeighbours K) D [v]
             (getLowerNeighbours K v)))).map Simplex.verts).Nodup := by
  rw [List.map_flatMap]
  apply nodup_flatMap_blocks
  · intro v _
    exact rips_block_nodup D hsk v
  · refine (sortList_sorted _).imp_of_mem ?_
    intro v w _ _ hvw l hl1 hl2
    obtain ⟨hv1, hmax1⟩ := rips_block_max D hsk v l hl1
    obtain ⟨hw2, hmax2⟩ := rips_block_max D hsk w l hl2
    have h1 : w ≤ v := hmax1 w hw2
    omega

/-- Modelled from the spec: a clique of size at least one of the graph
`G = (V, E)` whose 0- and 1-skeleton `K` represents, written as its
strictly increasing vertex list: non-empty, every vertex backed by a
vertex simplex of `K`, every pair of vertices joined by an edge simplex
of `K`.  This definition follows the words of the specification and is
compared against the enumeration performed by the source. -/
def isCliqueList (K : SimplicialComplex) (l : List ℕ) : Prop :=
  l.Pairwise (· < ·) ∧ l ≠ [] ∧ (∀ v ∈ l, ∃ z ∈ K, z.verts = [v]) ∧
    ∀ u ∈ l, ∀ w ∈ l, u < w → ∃ e ∈ K, e.verts = [u, w]

theorem chain_iff_clique {K : SimplicialComplex} {D : ℕ}
    (hsk : ∀ s ∈ K, s.verts.Sorted (· < ·) ∧
      (s.verts.length = 1 ∨ s.verts.length = 2))
    (hcons : ∀ s ∈ K, ∀ v ∈ s.verts, ∃ z ∈ K, z.verts = [v])
    (l : List ℕ) :
    (∃ v ∈ vertsOf K, ∃ t,
        chainIn (getLowerNeighbours K) (getLowerNeighbours K v) t ∧
        t.length + 1 ≤ D + 1 ∧ l = sortList (v :: t))
    ↔ (isCliqueList K l ∧ l.length ≤ D + 1) := by
  have hlt := getLowerNeighbours_lt hsk
  constructor
  · rintro ⟨v, hv, t, hct, hbound, hl⟩
    have htv : ∀ x ∈ t, x ∈ getLowerNeighbours K v := hct.1
    have hdect : (v :: t).Pairwise (· > ·) := by
      rw [List.pairwise_cons]
      exact ⟨fun x hx => hlt v x (htv x hx), chainIn_sorted_gt hlt hct⟩
    have hl' : l = (v :: t).reverse := by
      rw [hl, sortList_of_sorted_gt hdect]
    have hmem : ∀ x, x ∈ l ↔ x ∈ v :: t := by
      intro x
      rw [hl', List.mem_reverse]
    have hlsort : l.Pairwise (· < ·) := by
      rw [hl']
      exact List.pairwise_reverse.mpr hdect
    refine ⟨⟨hlsort, ?_, ?_, ?_⟩, ?_⟩
    · rw [hl']
      simp
    · intro x hx
      rcases List.mem_cons.mp ((hmem x).mp hx) with h | h
      · obtain ⟨z, hzK, hvz⟩ := mem_vertsOf.mp (by rw [← h] at hv; exact hv)
        exact hcons z hzK x hvz
      · obtain ⟨e, heK, hev⟩ := (mem_getLowerNeighbours hsk).mp (htv x h)
        exact hcons e heK x (by rw [hev]; simp)
    · intro u hu w hw huw
      rcases List.mem_cons.mp ((hmem w).mp hw) with hw2 | hw2
      · rcases List.mem_cons.mp ((hmem u).mp hu) with hu2 | hu2
        · omega
        · subst hw2
          exact (mem_getLowerNeighbours hsk).mp (htv u hu2)
      · rcases List.mem_cons.mp ((hmem u).mp hu) with hu2 | hu2
        · exfalso
          have := hlt v w (htv w hw2)
          omega
        · rcases pairwise_two_sided hct.2 u hu2 w hw2 with h | h | h
          · omega
          · exfalso
            have := hlt u w h
            omega
          · exact (mem_getLowerNeighbours hsk).mp h
    · have := congrArg List.length hl'
      simp at this
      omega
  · rintro ⟨⟨hsort, hne, hverts, hedges⟩, hlen⟩
    cases hr : l.reverse with
    | nil =>
        exfalso
        exact hne (by rw [← List.reverse_reverse l, hr]; rfl)
    | cons v t =>
        have hlv : l = (v :: t).reverse := by
          rw [← hr, List.reverse_reverse]
        have hdec : (v :: t).Pairwise (· > ·) := by
          rw [← hr]
          exact List.pairwise_reverse.mpr hsort
        have hmem : ∀ x, x ∈ l ↔ x ∈ v :: t := by
          intro x
          rw [hlv, List.mem_reverse]
        have hvl : v ∈ l := (hmem v).mpr (by simp)
        have hxv : ∀ x ∈ t, x < v := (List.pairwise_cons.mp hdec).1
        have htl : ∀ x ∈ t, x ∈ l := fun x hx => (hmem x).mpr (by simp [hx])
        refine ⟨v, ?_, t, ⟨?_, ?_⟩, ?_, ?_⟩
        · obtain ⟨z, hzK, hzv⟩ := hverts v hvl
          exact mem_vertsOf.mpr ⟨z, hzK, by rw [hzv]; simp⟩
        · intro n hn
          obtain ⟨e, heK, hev⟩ := hedges n (htl n hn) v hvl (hxv n hn)
          exact (mem_getLowerNeighbours hsk).mpr ⟨e, heK, hev⟩
        · refine ((List.pairwise_cons.mp hdec).2).imp_of_mem ?_
          intro a b ha hb hab
          obtain ⟨e, heK, hev⟩ := hedges b (htl b hb) a (htl a ha) hab
          exact (mem_getLowerNeighbours hsk).mpr ⟨e, heK, hev⟩
        · have := congrArg List.length hlv
          simp at this
          omega
        · rw [sortList_of_sorted_gt hdec, hlv]

/-- **C2.**  For every complex `K` that is a consistent 0- and 1-skeleton
of a graph (every simplex a sorted vertex or edge simplex, every endpoint
of an edge backed by a vertex simplex) and every dimension bound `D`, the
Rips expansion returns a complex whose simplices — identified by their
vertex sets — are exactly the cliques of the graph of size at most `D + 1`,
each occurring exactly once. -/
theorem claim_C2 (K : SimplicialComplex) (D : ℕ)
    (hsk : ∀ s ∈ K, s.verts.Sorted (· < ·) ∧
      (s.verts.length = 1 ∨ s.verts.length = 2))
    (hcons : ∀ s ∈ K, ∀ v ∈ s.verts, ∃ z ∈ K, z.verts = [v]) :
    ((ripsExpansion K D).map Simplex.verts).Nodup ∧
    ∀ l, l ∈ (ripsExpansion K D).map Simplex.verts ↔
      (isCliqueList K l ∧ l.length ≤ D + 1) := by
  rw [ripsExpansion_map_verts]
  refine ⟨rips_enum_nodup D hsk, ?_⟩
  intro l
  rw [List.map_flatMap, List.mem_flatMap]
  rw [← chain_iff_clique hsk hcons l]
  constructor
  · rintro ⟨v, hv, hl⟩
    obtain ⟨t, hct, hbound, hle⟩ := (rips_block_iff D hsk v l).mp hl
    exact ⟨v, hv, t, hct, hbound, hle⟩
  · rintro ⟨v, hv, t, hct, hbound, hle⟩
    exact ⟨v, hv, (rips_block_iff D hsk v l).mpr ⟨t, hct, hbound, hle⟩⟩

/-- Witness for **C2**: the triangle graph on vertices 0, 1, 2 (three
vertex simplices, three edge simplices) expanded to dimension 2. -/
theorem claim_C2_witness :
    ((∀ s ∈ ([⟨[0], 0⟩, ⟨[1], 0⟩, ⟨[2], 0⟩, ⟨[0, 1], 1⟩, ⟨[0, 2], 2⟩,
          ⟨[1, 2], 3⟩] : SimplicialComplex),
        s.verts.Sorted (· < ·) ∧ (s.verts.length = 1 ∨ s.verts.length = 2)) ∧
      (∀ s ∈ ([⟨[0], 0⟩, ⟨[1], 0⟩, ⟨[2], 0⟩, ⟨[0, 1], 1⟩, ⟨[0, 2], 2⟩,
          ⟨[1, 2], 3⟩] : SimplicialComplex),
        ∀ v ∈ s.verts, ∃ z ∈ ([⟨[0], 0⟩, ⟨[1], 0⟩, ⟨[2], 0⟩, ⟨[0, 1], 1⟩,
          ⟨[0, 2], 2⟩, ⟨[1, 2], 3⟩] : SimplicialComplex), z.verts = [v])) ∧
    (((ripsExpansion [⟨[0], 0⟩, ⟨[1], 0⟩, ⟨[2], 0⟩, ⟨[0, 1], 1⟩, ⟨[0, 2], 2⟩,
        ⟨[1, 2], 3⟩] 2).map Simplex.verts).Nodup ∧
      ∀ l, l ∈ (ripsExpansion [⟨[0], 0⟩, ⟨[1], 0⟩, ⟨[2], 0⟩, ⟨[0, 1], 1⟩,
          ⟨[0, 2], 2⟩, ⟨[1, 2], 3⟩] 2).map Simplex.verts ↔
        (isCliqueList [⟨[0], 0⟩, ⟨[1], 0⟩, ⟨[2], 0⟩, ⟨[0, 1], 1⟩, ⟨[0, 2], 2⟩,
          ⟨[1, 2], 3⟩] l ∧ l.length ≤ 2 + 1)) :=
  ⟨⟨by decide, by decide⟩, claim_C2 _ 2 (by decide) (by decide)⟩
